import Mathlib

/-! mytar: a verification development for `Practica1/mytar_routines.c`

The archive routines `copynFile`, `loadstr`, `readHeader`, `createTar` and
`extractTar` are embedded as Lean functions over an explicit model of stdio
streams and of a flat file system.

Conventions of the embedding
* ABI: `int` and `unsigned int` are 4 bytes, `uint16_t` is 2 bytes, a pointer is
  8 bytes, integers are stored little-endian (x86-64 Linux).
* A stream (`FILE`) is the byte content of the file, a position and the mode it
  was opened in.  `getc` on a stream opened for writing and `putc` on a
  stream opened for reading fail with `EOF`, as in C.
* Streams are unbuffered snapshots: a stream opened for reading sees the
  content the file had when it was opened, so a file is not taken to be read
  and written at once; the file system a routine returns is the one seen once
  the C library has flushed what its output streams hold, also on the paths
  that return without `fclose`.
* `readHeader` describes the calls in which `malloc` returns the array of
  records (a request beyond `PTRDIFF_MAX` is refused); `readHeaderAlloc` takes
  the largest request `malloc` satisfies and covers the refused allocation,
  which the code does not test.  Elsewhere `malloc` and `fclose` succeed.
* A `char` buffer obtained from `malloc(n)` holds `n` bytes; a `strcpy` of a
  longer string into it is undefined behaviour and ends the run with
  `Outcome.undefined`.  Undefined means that C gives the run no meaning: an
  allocator that hands out more than `n` bytes may let a short overrun pass,
  a longer one corrupts the heap.
* A loop that may run forever (`loadstr`) takes a fuel argument and returns
  `none` when the fuel is used up.
-/

namespace MyTar

/-! ## Platform constants -/

/-- Value of `INT_MAX` from `limits.h`. -/
def INT_MAX : Int := 2147483647

/-- Value of `EXIT_SUCCESS` from `stdlib.h`. -/
def EXIT_SUCCESS : Int := 0

/-- Value of `EXIT_FAILURE` from `stdlib.h`. -/
def EXIT_FAILURE : Int := 1

/-- Value of `sizeof(char*)`. -/
def sizeofCharPtr : Nat := 8

/-- Conversion of an integer value to `int` (two's complement, 32 bits). -/
def toInt32 (v : Int) : Int :=
  if v % 4294967296 < 2147483648 then v % 4294967296 else v % 4294967296 - 4294967296

/-! ## Streams -/

/-- Mode a stream was opened in: `"r"` or `"w"`. -/
inductive Mode where
  | rd
  | wr
deriving DecidableEq, Repr

/-- An open stdio stream: the bytes of the file, the file position indicator
and the opening mode. -/
structure FILE where
  data : List UInt8
  pos : Nat
  mode : Mode
deriving DecidableEq, Repr

/-- Bytes of a stream from its position to its end that `getc` can deliver. -/
def FILE.unread (f : FILE) : List UInt8 :=
  match f.mode with
  | Mode.rd => f.data.drop f.pos
  | Mode.wr => []

/-- Model of `getc`: `none` is `EOF`. -/
def getc (f : FILE) : Option UInt8 × FILE :=
  match f.unread with
  | [] => (none, f)
  | b :: _ => (some b, { f with pos := f.pos + 1 })

/-- Content of a file after one byte is stored at offset `pos`; a gap between
the old end of the file and `pos` reads as zero bytes. -/
def writeAt (data : List UInt8) (pos : Nat) (b : UInt8) : List UInt8 :=
  data.take pos ++ List.replicate (pos - data.length) 0 ++ b :: data.drop (pos + 1)

/-- Model of `putc`: `none` is `EOF` (the byte was not written). -/
def putc (c : UInt8) (f : FILE) : Option UInt8 × FILE :=
  match f.mode with
  | Mode.rd => (none, f)
  | Mode.wr => (some c, { f with data := writeAt f.data f.pos c, pos := f.pos + 1 })

/-- Model of `fseek(f, offset, SEEK_SET)`: the return value and the stream. -/
def fseekSet (f : FILE) (offset : Int) : Int × FILE :=
  if 0 ≤ offset then (0, { f with pos := offset.toNat }) else (-1, f)

/-- Model of `fseek(f, offset, SEEK_CUR)`: the return value and the stream. -/
def fseekCur (f : FILE) (offset : Int) : Int × FILE :=
  if 0 ≤ (f.pos : Int) + offset then (0, { f with pos := ((f.pos : Int) + offset).toNat })
  else (-1, f)

/-- Model of `fwrite(ptr, size, 1, f)` for the `size` bytes `bytes`: one `putc`
per byte. -/
def fwrite (bytes : List UInt8) (f : FILE) : FILE :=
  bytes.foldl (fun g b => (putc b g).2) f

/-- Model of `fread(ptr, size, 1, f)`: the bytes delivered (fewer than `size`
when the stream ends first) and the stream. -/
def fread (size : Nat) (f : FILE) : List UInt8 × FILE :=
  (f.unread.take size, { f with pos := f.pos + (f.unread.take size).length })

/-! ## copynFile -/

/-- Local variables of `copynFile` that change in its loop. -/
structure CopyState where
  totalBytes : Int
  sum1 : Nat
  sum2 : Nat
  origin : FILE
  destination : FILE
deriving DecidableEq, Repr

/-- The `while` loop of `copynFile`.  Every iteration takes one byte from the
origin, so the loop is written by recursion on the bytes still unread; the
empty list is `getc` returning `EOF`.  The bound is tested before `getc` is
called. -/
def copyLoop (nBytes : Int) : List UInt8 → CopyState → CopyState
  | [], s => s
  | originByte :: unread, s =>
    if s.totalBytes < nBytes then
      let sum1 := (s.sum1 + originByte.toNat) % 255 % 65536
      let sum2 := (s.sum2 + sum1) % 255 % 65536
      copyLoop nBytes unread
        { totalBytes := s.totalBytes + 1
          sum1 := sum1
          sum2 := sum2
          origin := { s.origin with pos := s.origin.pos + 1 }
          destination := (putc originByte s.destination).2 }
    else s

/-- What `copynFile` leaves behind: its return value, both streams and the
value of `*crc`. -/
structure CopyResult where
  ret : Int
  origin : Option FILE
  destination : FILE
  crc : Nat
deriving DecidableEq, Repr

/-- Model of `copynFile(origin, destination, nBytes, crc)`; `origin = none` is
the `NULL` pointer and `crc` is the value `*crc` holds at the call. -/
def copynFile (origin : Option FILE) (destination : FILE) (nBytes : Int) (crc : Nat) :
    CopyResult :=
  match origin with
  | none => { ret := -1, origin := none, destination := destination, crc := crc }
  | some o =>
    let s := copyLoop nBytes o.unread
      { totalBytes := 0, sum1 := 0, sum2 := 0, origin := o, destination := destination }
    { ret := s.totalBytes
      origin := some s.origin
      destination := s.destination
      crc := ((s.sum2 <<< 8) ||| s.sum1) % 65536 }

/-! ## Fletcher-16 as the specification words it -/

/-- One step of the checksum: `sum1 = (sum1 + b) mod 255`,
`sum2 = (sum2 + sum1) mod 255`. -/
def Spec.update (s : Nat × Nat) (b : UInt8) : Nat × Nat :=
  ((s.1 + b.toNat) % 255, (s.2 + (s.1 + b.toNat) % 255) % 255)

/-- Final checksum `(sum2 << 8) | sum1`. -/
def Spec.finalize (s : Nat × Nat) : Nat :=
  (s.2 <<< 8) ||| s.1

/-- Fletcher-16 reference of a byte sequence, starting from `sum1 = sum2 = 0`. -/
def Spec.fletcher16 (bytes : List UInt8) : Nat :=
  Spec.finalize (bytes.foldl Spec.update (0, 0))

/-! ## Integers and strings in memory -/

/-- The `width` low bytes of `v`, least significant first. -/
def toLE : Nat → Nat → List UInt8
  | 0, _ => []
  | width + 1, v => UInt8.ofNat (v % 256) :: toLE width (v / 256)

/-- Unsigned value of a little-endian byte sequence. -/
def fromLE : List UInt8 → Nat
  | [] => 0
  | b :: bs => b.toNat + 256 * fromLE bs

/-- Bytes of an object after `fread` stored `got` at its start: the bytes not
reached keep their old value. -/
def overlay (got old : List UInt8) : List UInt8 :=
  got ++ old.drop got.length

/-- The C string held by a `char` buffer: the bytes before the first zero. -/
def cstr (buf : List UInt8) : List UInt8 :=
  buf.takeWhile (fun c => c != 0)

/-- The `char` that `filename[i] = getc(file)` stores; `EOF` is `-1`. -/
def charOfGetc : Option UInt8 → UInt8
  | some b => b
  | none => 255

/-! ## loadstr and readHeader -/

/-- First loop of `loadstr`: `while((c = getc(file) != '\0')) filenameLength++;`.
The loop goes on for every value of `getc` other than zero, `EOF` included.
Returns `none` when the fuel is used up. -/
def loadstrScan : Nat → FILE → Nat → Option (FILE × Nat)
  | 0, _, _ => none
  | fuel + 1, file, filenameLength =>
    if (getc file).1 = some 0 then some ((getc file).2, filenameLength)
    else loadstrScan fuel (getc file).2 (filenameLength + 1)

/-- Second loop of `loadstr`: `for (i = 0; i < n; i++) filename[i] = getc(file);`. -/
def loadstrFill : Nat → FILE → List UInt8 × FILE
  | 0, file => ([], file)
  | n + 1, file =>
    (charOfGetc (getc file).1 :: (loadstrFill n (getc file).2).1,
      (loadstrFill n (getc file).2).2)

/-- Model of `loadstr(file)`.  The outer `none`: no return within the fuel.
The inner `none`: `NULL`.  Otherwise the buffer of `filenameLength + 1` bytes. -/
def loadstr (fuel : Nat) (file : FILE) : Option (Option (List UInt8) × FILE) :=
  match loadstrScan fuel file 0 with
  | none => none
  | some (file1, filenameLength) =>
    if filenameLength = 0 then some (none, file1)
    else
      let file2 := (fseekCur file1 (-((filenameLength : Int) + 1))).2
      some (some (loadstrFill (filenameLength + 1) file2).1,
        (loadstrFill (filenameLength + 1) file2).2)

/-- A header record; `name` is the C string the `char*` points to. -/
structure stHeaderEntry where
  name : List UInt8
  size : Nat
  crc : Nat
deriving DecidableEq, Repr

/-- The `for` loop of `readHeader` over the `n` records still to read;
`fileSize` and `crc` are the current values of the two local variables, whose
bytes `fread` overwrites as far as the stream delivers them. -/
def readEntries (fuel : Nat) : Nat → FILE → Nat → Nat →
    Option (Option (List stHeaderEntry) × FILE)
  | 0, tarFile, _, _ => some (some [], tarFile)
  | n + 1, tarFile, fileSize, crc =>
    match loadstr fuel tarFile with
    | none => none
    | some (none, f1) => some (none, f1)
    | some (some buf, f1) =>
      let fileSize1 := fromLE (overlay (fread 4 f1).1 (toLE 4 fileSize))
      let f2 := (fread 4 f1).2
      let crc1 := fromLE (overlay (fread 2 f2).1 (toLE 2 crc))
      let f3 := (fread 2 f2).2
      match readEntries fuel n f3 fileSize1 crc1 with
      | none => none
      | some (none, f4) => some (none, f4)
      | some (some entries, f4) =>
        some (some ({ name := cstr buf, size := fileSize1, crc := crc1 } :: entries), f4)

/-- Model of `readHeader(tarFile, nFiles)` for the calls in which `malloc`
returns the array when the count is not negative.  The outer `none`: no
return within the fuel.  The inner `none`: `NULL`.  Otherwise the array and
`*nFiles`.  A negative count makes the `malloc` request exceed `PTRDIFF_MAX`,
so the array pointer returned after the empty loop is `NULL`. -/
def readHeader (fuel : Nat) (tarFile : FILE) :
    Option (Option (List stHeaderEntry × Int) × FILE) :=
  if (fread 4 tarFile).1.length < 4 then some (none, (fread 4 tarFile).2)
  else
    let numOfCompressedFiles := toInt32 (fromLE (fread 4 tarFile).1)
    if numOfCompressedFiles < 0 then some (none, (fread 4 tarFile).2)
    else
      match readEntries fuel numOfCompressedFiles.toNat (fread 4 tarFile).2 0 0x1234 with
      | none => none
      | some (none, f1) => some (none, f1)
      | some (some stHeader, f1) => some (some (stHeader, numOfCompressedFiles), f1)

/-- Value of `sizeof(stHeaderEntry)`: a pointer, an `unsigned int`, a
`uint16_t` and two bytes of padding. -/
def sizeofHeaderEntry : Nat := 16

/-- How a call of `readHeader` ends when the allocation may be refused. -/
inductive HeaderRun where
  /-- The call stored through the `NULL` pointer that `malloc` returned. -/
  | undefined
  /-- No return within the fuel. -/
  | noReturn
  /-- The call returned `result` (`none` is `NULL`) and left the stream behind. -/
  | returned (result : Option (List stHeaderEntry × Int)) (tarFile : FILE)
deriving DecidableEq, Repr

/-- Model of `readHeader(tarFile, nFiles)` with its allocation: `malloc`
satisfies a request of at most `heap` bytes and returns `NULL` for a larger
one.  The code does not test the pointer: when the request
`sizeof(stHeaderEntry) * numOfCompressedFiles` of a positive count is refused,
the first iteration calls `loadstr` and stores its result in `stHeader[0].name`,
through `NULL`. -/
def readHeaderAlloc (heap : Nat) (fuel : Nat) (tarFile : FILE) : HeaderRun :=
  if (fread 4 tarFile).1.length < 4 then HeaderRun.returned none (fread 4 tarFile).2
  else
    let numOfCompressedFiles := toInt32 (fromLE (fread 4 tarFile).1)
    if numOfCompressedFiles ≤ 0 ∨ sizeofHeaderEntry * numOfCompressedFiles.toNat ≤ heap then
      match readHeader fuel tarFile with
      | none => HeaderRun.noReturn
      | some (result, tarFile1) => HeaderRun.returned result tarFile1
    else
      match loadstr fuel (fread 4 tarFile).2 with
      | none => HeaderRun.noReturn
      | some _ => HeaderRun.undefined

/-! ## File system -/

/-- A flat file system: the content of every existing file, and the names
under which a file can be created or truncated. -/
structure FS where
  files : List UInt8 → Option (List UInt8)
  writable : List UInt8 → Bool

/-- The file system after `data` became the content of `name`. -/
def FS.store (fs : FS) (name data : List UInt8) : FS :=
  { fs with files := fun n => if n = name then some data else fs.files n }

/-- Model of `fopen(name, "r")`; `none` is `NULL`. -/
def fopenRead (fs : FS) (name : List UInt8) : Option FILE :=
  match fs.files name with
  | none => none
  | some content => some { data := content, pos := 0, mode := Mode.rd }

/-- Model of `fopen(name, "w")`: the file is created or truncated. -/
def fopenWrite (fs : FS) (name : List UInt8) : Option FILE × FS :=
  if fs.writable name then (some { data := [], pos := 0, mode := Mode.wr }, fs.store name [])
  else (none, fs)

/-! ## Output of the routines -/

/-- Lines the routines print on standard output, each given by the arguments
of its format. -/
inductive LogLine where
  /-- Line `[%d]: Adding file %s, size %d Bytes, CRC 0x%.4X`. -/
  | adding (i : Nat) (name : List UInt8) (size : Nat) (crc : Nat)
  /-- Line `Your .mtar file has been successfully created!`. -/
  | created
  /-- Line `[%d]: Creating file %s, size %d Bytes, CRC 0x%.4X ...`. -/
  | creating (i : Nat) (name : List UInt8) (size : Nat) (crc : Nat)
  /-- Line `[%d]: CRC of extracted file 0x%.4X. File is OK.`. -/
  | fileIsOK (i : Nat) (crc : Nat)
deriving DecidableEq, Repr

/-- A finished call: the value returned, the file system and the lines printed. -/
structure Run where
  code : Int
  fs : FS
  out : List LogLine

/-- Result of a call that may run into undefined behaviour. -/
inductive Outcome where
  | undefined
  | returned (r : Run)

/-! ## createTar -/

/-- Value `createTar` gives `stHeaderBytes` before it opens the archive: the
`int` holding `sizeof(int) + sizeof(unsigned int) * nFiles + sizeof(uint16_t) * nFiles`,
to which the first loop adds `strlen(fileNames[i]) + 1` for every name. -/
def stHeaderBytes (fileNames : List (List UInt8)) : Int :=
  fileNames.foldl (fun acc name => toInt32 (acc + ((name.length : Int) + 1)))
    (toInt32 (4 + 4 * (fileNames.length : Int) + 2 * (fileNames.length : Int)))

/-- How the data loop of `createTar` ends. -/
inductive DataLoop where
  /-- The `strcpy` wrote past the end of the name buffer. -/
  | undefined
  /-- The loop executed `return EXIT_FAILURE`. -/
  | failed (destinationFile : FILE) (out : List LogLine)
  /-- The loop ran to its end. -/
  | finished (destinationFile : FILE) (crc : Nat) (stHeader : List stHeaderEntry)
      (out : List LogLine)

/-- The data loop of `createTar` over the names still to pack: `i` is the loop
counter, `stHeader` the records filled so far.  The name buffer of a record
is `malloc(sizeof(fileNames[i]) + 1)`, that is `sizeof(char*) + 1` bytes, and
`strcpy` stores `strlen(fileNames[i]) + 1` bytes in it.  A longer string makes
the run undefined; whether a given overrun is harmless depends on the
allocator and is not part of the model. -/
def createLoop (fs : FS) : List (List UInt8) → Nat → FILE → Nat → List stHeaderEntry →
    List LogLine → DataLoop
  | [], _, destinationFile, crc, stHeader, out =>
    DataLoop.finished destinationFile crc stHeader out
  | name :: rest, i, destinationFile, crc, stHeader, out =>
    match fopenRead fs name with
    | none => DataLoop.failed destinationFile out
    | some originFile =>
      let r := copynFile (some originFile) destinationFile INT_MAX crc
      if r.ret = -1 then DataLoop.failed r.destination out
      else if sizeofCharPtr + 1 < name.length + 1 then DataLoop.undefined
      else
        let entry : stHeaderEntry :=
          { name := name, size := (r.ret % 4294967296).toNat, crc := r.crc }
        createLoop fs rest (i + 1) r.destination r.crc (stHeader ++ [entry])
          (out ++ [LogLine.adding i entry.name entry.size entry.crc])

/-- Bytes `createTar` writes for one record: the name and its terminator, the
size and the checksum. -/
def entryBytes (e : stHeaderEntry) : List UInt8 :=
  e.name ++ [0] ++ toLE 4 e.size ++ toLE 2 e.crc

/-- Bytes `createTar` writes at offset 0: `nFiles`, then every record. -/
def headerBytes (nFiles : Nat) (stHeader : List stHeaderEntry) : List UInt8 :=
  toLE 4 nFiles ++ (stHeader.map entryBytes).flatten

/-- The header loop of `createTar`: three `fwrite` calls per record. -/
def writeEntries (stHeader : List stHeaderEntry) (destinationFile : FILE) : FILE :=
  stHeader.foldl
    (fun f e => fwrite (toLE 2 e.crc) (fwrite (toLE 4 e.size) (fwrite (e.name ++ [0]) f)))
    destinationFile

/-- Model of `createTar(nFiles, fileNames, tarName)` with `nFiles` the length of
`fileNames`.  When the archive cannot be opened, `fseek` is called on `NULL`.
On the paths that return `EXIT_FAILURE` the output stream stays open: the
file system returned holds what the stream holds, which reaches the file
when the C library flushes the stream, not at the return itself. -/
def createTar (fs : FS) (fileNames : List (List UInt8)) (tarName : List UInt8) : Outcome :=
  match fopenWrite fs tarName with
  | (none, _) => Outcome.undefined
  | (some destinationFile, fs1) =>
    match createLoop fs1 fileNames 0
        (fseekSet destinationFile (stHeaderBytes fileNames)).2 0x1234 [] [] with
    | DataLoop.undefined => Outcome.undefined
    | DataLoop.failed dest out =>
      Outcome.returned { code := EXIT_FAILURE, fs := fs1.store tarName dest.data, out := out }
    | DataLoop.finished dest _ stHeader out =>
      if (fseekSet dest 0).1 ≠ 0 then
        Outcome.returned { code := EXIT_FAILURE, fs := fs1.store tarName dest.data, out := out }
      else
        let dest1 := fwrite (toLE 4 fileNames.length) (fseekSet dest 0).2
        let dest2 := writeEntries stHeader dest1
        Outcome.returned
          { code := EXIT_SUCCESS
            fs := fs1.store tarName dest2.data
            out := out ++ [LogLine.created] }

/-! ## extractTar -/

/-- The extraction loop of `extractTar` over the records still to extract.
`copynFile` receives `stHeader[i].size` converted to `int` and the address of
`stHeader[i].crc`, so the record holds the checksum of the copy when the two
lines are printed.  The archive stream is a snapshot: a record named like the
archive, whose destination would truncate the archive being read, is outside
the model. -/
def extractLoop : List stHeaderEntry → Nat → FILE → FS → List LogLine → Run
  | [], _, _, fs, out => { code := EXIT_SUCCESS, fs := fs, out := out }
  | entry :: rest, i, tarFile, fs, out =>
    match fopenWrite fs entry.name with
    | (none, _) => { code := EXIT_FAILURE, fs := fs, out := out }
    | (some destinationFile, fs1) =>
      let r := copynFile (some tarFile) destinationFile (toInt32 entry.size) entry.crc
      if r.ret = -1 then
        { code := EXIT_FAILURE, fs := fs1.store entry.name r.destination.data, out := out }
      else
        extractLoop rest (i + 1) (r.origin.getD tarFile)
          (fs1.store entry.name r.destination.data)
          (out ++ [LogLine.creating i entry.name entry.size r.crc, LogLine.fileIsOK i r.crc])

/-- Model of `extractTar(tarName)`; `none`: no return within the fuel. -/
def extractTar (fuel : Nat) (fs : FS) (tarName : List UInt8) : Option Run :=
  match fopenRead fs tarName with
  | none => some { code := EXIT_FAILURE, fs := fs, out := [] }
  | some tarFile =>
    match readHeader fuel tarFile with
    | none => none
    | some (none, _) => some { code := EXIT_FAILURE, fs := fs, out := [] }
    | some (some (stHeader, _), tarFile1) => some (extractLoop stHeader 0 tarFile1 fs [])

/-! ## Observations on results -/

/-- Return value of a run of `createTar`, if it returns. -/
def Outcome.code : Outcome → Option Int
  | Outcome.undefined => none
  | Outcome.returned r => some r.code

/-- Content of the file `name` after a run of `createTar`, if it returns and
the file exists. -/
def Outcome.file (o : Outcome) (name : List UInt8) : Option (List UInt8) :=
  match o with
  | Outcome.undefined => none
  | Outcome.returned r => r.fs.files name

/-- Whether the run ended in undefined behaviour. -/
def Outcome.isUndefined : Outcome → Bool
  | Outcome.undefined => true
  | Outcome.returned _ => false

/-- The run of `extractTar` on the archive `tarName` in the file system a run
of `createTar` left behind. -/
def Outcome.extract (fuel : Nat) (o : Outcome) (tarName : List UInt8) : Option Run :=
  match o with
  | Outcome.undefined => none
  | Outcome.returned r => extractTar fuel r.fs tarName

/-! ## Descriptions used in the statements -/

/-- Content of a file after the block `bs` is stored at offset `pos`; an empty
block changes nothing, and a gap before `pos` reads as zero bytes. -/
def overwrite (data : List UInt8) (pos : Nat) (bs : List UInt8) : List UInt8 :=
  match bs with
  | [] => data
  | _ :: _ =>
    data.take pos ++ List.replicate (pos - data.length) 0 ++ bs ++ data.drop (pos + bs.length)

/-- Header byte-size as the specification words it:
`4 + sum over files of (byteLength(name) + 1 + 4 + 2)`. -/
def Spec.headerSize (fileNames : List (List UInt8)) : Nat :=
  4 + (fileNames.map (fun name => name.length + 1 + 4 + 2)).sum

/-- The bytes `createTar` copies from the source `name`: its content, up to
`INT_MAX` bytes. -/
def copiedFrom (fs : FS) (name : List UInt8) : List UInt8 :=
  ((fs.files name).getD []).take INT_MAX.toNat

/-- Concatenation of the bytes copied from the sources, in argument order. -/
def dataSection (fs : FS) (fileNames : List (List UInt8)) : List UInt8 :=
  (fileNames.map (copiedFrom fs)).flatten

/-- The record of the source `name`: its name, the number of bytes copied and
their Fletcher-16 checksum. -/
def entryOf (fs : FS) (name : List UInt8) : stHeaderEntry :=
  { name := name, size := (copiedFrom fs name).length, crc := Spec.fletcher16 (copiedFrom fs name) }

/-- Whether every source can be opened and every name fits the buffer
`createTar` allocates for it. -/
def packable (fs : FS) (fileNames : List (List UInt8)) : Bool :=
  fileNames.all (fun name => (fs.files name).isSome && decide (name.length ≤ sizeofCharPtr))

/-- The file system after every listed source was recreated, in order, with
the bytes `createTar` copied from it in the file system `src`. -/
def recreated (src : FS) (fileNames : List (List UInt8)) (fs : FS) : FS :=
  fileNames.foldl (fun acc name => (acc.store name []).store name (copiedFrom src name)) fs

/-- The lines `extractTar` prints for the records of the listed sources,
numbered from `i`, when every copy yields the recorded checksum. -/
def extractLines (src : FS) : Nat → List (List UInt8) → List LogLine
  | _, [] => []
  | i, name :: rest =>
    LogLine.creating i name (entryOf src name).size (entryOf src name).crc ::
      LogLine.fileIsOK i (entryOf src name).crc :: extractLines src (i + 1) rest

/-- The bytes of an ASCII string literal. -/
def bytes (s : String) : List UInt8 :=
  s.data.map (fun c => UInt8.ofNat c.toNat)

/-- A file system holding exactly the listed files, in which every name can
be created. -/
def mkFS (files : List (List UInt8 × List UInt8)) : FS :=
  { files := fun n => (files.find? (fun p => p.1 = n)).map (fun p => p.2)
    writable := fun _ => true }

/-- Base name of a path as the specification words it: the part after the
last `/`. -/
def Spec.baseName (path : List UInt8) : List UInt8 :=
  (path.reverse.takeWhile (fun c => c != 47)).reverse

/-- The names of the records `readHeader` finds in the archive `tarName` that a
run of `createTar` left behind. -/
def recordedNames (fuel : Nat) (o : Outcome) (tarName : List UInt8) :
    Option (List (List UInt8)) :=
  match o.file tarName with
  | none => none
  | some content =>
    match readHeader fuel { data := content, pos := 0, mode := Mode.rd } with
    | some (some (stHeader, _), _) => some (stHeader.map (fun e => e.name))
    | _ => none

/-! ## Example data -/

/-- The header of the archive of `a.txt` (content `abc`) and `b.txt` (empty). -/
def exampleHeader : List stHeaderEntry :=
  [{ name := bytes "a.txt", size := 3, crc := 0x4C27 },
   { name := bytes "b.txt", size := 0, crc := 0 }]

/-- The archive of `a.txt` and `b.txt` after the last data byte of `a.txt`
changed from `c` to `d`. -/
def corruptedArchive : List UInt8 :=
  headerBytes 2 exampleHeader ++ bytes "abd"

/-- An archive whose header declares 3 bytes for the file `a` and whose data
section holds the single byte `x`. -/
def truncatedArchive : List UInt8 :=
  headerBytes 1 [{ name := bytes "a", size := 3, crc := 0x4C27 }] ++ bytes "x"

/-- A file system holding `a.txt` (content `abc`) and `b.txt` (empty). -/
def exampleFS : FS :=
  mkFS [(bytes "a.txt", bytes "abc"), (bytes "b.txt", [])]

/-! # Theorems -/

/-! ## Bytes -/

theorem toNat_ofNat8 (n : Nat) : (UInt8.ofNat n).toNat = n % 256 := rfl

theorem ofNat_toNat8 (b : UInt8) : UInt8.ofNat b.toNat = b := by
  apply UInt8.ext_iff.mpr
  rw [toNat_ofNat8]
  exact Nat.mod_eq_of_lt (UInt8.toNat_lt_size b)

/-! ## The copy loop -/

theorem fwrite_nil (f : FILE) : fwrite [] f = f := rfl

theorem fwrite_cons (b : UInt8) (bs : List UInt8) (f : FILE) :
    fwrite (b :: bs) f = fwrite bs (putc b f).2 := rfl

theorem fwrite_append (xs ys : List UInt8) (f : FILE) :
    fwrite (xs ++ ys) f = fwrite ys (fwrite xs f) := by
  simp [fwrite, List.foldl_append]

/-- Number of iterations the copy loop makes from a state with `total` bytes
copied, `unread` bytes left in the origin and the bound `nBytes`. -/
theorem copyLoop_spec (nBytes : Int) (unread : List UInt8) (s : CopyState) :
    copyLoop nBytes unread s =
      { totalBytes := s.totalBytes + (min (nBytes - s.totalBytes).toNat unread.length : Nat)
        sum1 := ((unread.take (min (nBytes - s.totalBytes).toNat unread.length)).foldl
          Spec.update (s.sum1, s.sum2)).1
        sum2 := ((unread.take (min (nBytes - s.totalBytes).toNat unread.length)).foldl
          Spec.update (s.sum1, s.sum2)).2
        origin := { s.origin with
          pos := s.origin.pos + min (nBytes - s.totalBytes).toNat unread.length }
        destination :=
          fwrite (unread.take (min (nBytes - s.totalBytes).toNat unread.length))
            s.destination } := by
  induction unread generalizing s with
  | nil => cases s; simp [copyLoop, fwrite_nil]
  | cons b rest ih =>
    by_cases h : s.totalBytes < nBytes
    · have hk : (nBytes - s.totalBytes).toNat = (nBytes - (s.totalBytes + 1)).toNat + 1 := by
        omega
      rw [copyLoop, if_pos h, ih]
      simp only [hk, List.length_cons, Nat.add_min_add_right, List.take_succ_cons,
        List.foldl_cons, fwrite_cons, Spec.update]
      have e1 : (s.sum1 + b.toNat) % 255 % 65536 = (s.sum1 + b.toNat) % 255 := by omega
      have e2 : (s.sum2 + (s.sum1 + b.toNat) % 255) % 255 % 65536 =
          (s.sum2 + (s.sum1 + b.toNat) % 255) % 255 := by omega
      simp only [e1, e2]
      congr 1
      · push_cast; ring
      · congr 1; omega
    · have hk : (nBytes - s.totalBytes).toNat = 0 := by omega
      rw [copyLoop, if_neg h]
      cases s
      simp [hk, fwrite_nil]

/-! ## Writing blocks -/

theorem putc_wr (c : UInt8) (f : FILE) (h : f.mode = Mode.wr) :
    (putc c f).2 = { f with data := writeAt f.data f.pos c, pos := f.pos + 1 } := by
  simp [putc, h]

theorem putc_rd (c : UInt8) (f : FILE) (h : f.mode = Mode.rd) : putc c f = (none, f) := by
  simp [putc, h]

theorem overwrite_writeAt (data : List UInt8) (pos : Nat) (b : UInt8) (bs : List UInt8) :
    overwrite (writeAt data pos b) (pos + 1) bs = overwrite data pos (b :: bs) := by
  cases bs with
  | nil => simp [overwrite, writeAt]
  | cons c cs =>
    have hP : (data.take pos ++ List.replicate (pos - data.length) (0 : UInt8)).length = pos := by
      simp; omega
    generalize hPdef : data.take pos ++ List.replicate (pos - data.length) (0 : UInt8) = P at hP
    have hW : writeAt data pos b = P ++ b :: data.drop (pos + 1) := by
      simp [writeAt, hPdef]
    have hlen : (writeAt data pos b).length = pos + 1 + (data.drop (pos + 1)).length := by
      rw [hW]; simp [hP]; omega
    have htake : (writeAt data pos b).take (pos + 1) = P ++ [b] := by
      rw [hW, List.take_append_eq_append_take, hP]
      simp [List.take_of_length_le, hP]
    have hdrop : (writeAt data pos b).drop (pos + 1 + (c :: cs).length) =
        data.drop (pos + (b :: c :: cs).length) := by
      rw [hW, List.drop_append_eq_append_drop, hP]
      have : P.drop (pos + 1 + (c :: cs).length) = [] := by
        apply List.drop_of_length_le; omega
      rw [this]
      simp only [List.length_cons, List.nil_append]
      have e : pos + 1 + (cs.length + 1) - pos = (cs.length + 1) + 1 := by omega
      rw [e, List.drop_succ_cons, List.drop_drop]
      congr 1; omega
    have hrep : List.replicate (pos + 1 - (writeAt data pos b).length) (0 : UInt8) = [] := by
      rw [hlen]
      have : pos + 1 - (pos + 1 + (data.drop (pos + 1)).length) = 0 := by omega
      rw [this]; rfl
    simp only [overwrite]
    rw [htake, hdrop, hrep, hPdef]
    simp

theorem fwrite_wr (bs : List UInt8) (f : FILE) (h : f.mode = Mode.wr) :
    fwrite bs f = { f with data := overwrite f.data f.pos bs, pos := f.pos + bs.length } := by
  induction bs generalizing f with
  | nil => cases f; simp [fwrite_nil, overwrite]
  | cons b bs ih =>
    rw [fwrite_cons, putc_wr b f h, ih _ (by simpa using h)]
    simp only [overwrite_writeAt, List.length_cons]
    congr 1; omega

theorem fwrite_rd (bs : List UInt8) (f : FILE) (h : f.mode = Mode.rd) : fwrite bs f = f := by
  induction bs with
  | nil => rfl
  | cons b bs ih => rw [fwrite_cons, putc_rd b f h]; exact ih

theorem overwrite_at_end (data bs : List UInt8) : overwrite data data.length bs = data ++ bs := by
  cases bs with
  | nil => simp [overwrite]
  | cons c cs => simp [overwrite]

/-! ## The checksum -/

theorem foldl_update_lt (bs : List UInt8) (s : Nat × Nat) (h1 : s.1 < 255) (h2 : s.2 < 255) :
    (bs.foldl Spec.update s).1 < 255 ∧ (bs.foldl Spec.update s).2 < 255 := by
  induction bs generalizing s with
  | nil => exact ⟨h1, h2⟩
  | cons b bs ih =>
    rw [List.foldl_cons]
    apply ih
    · simp only [Spec.update]; omega
    · simp only [Spec.update]; omega

theorem finalize_lt (s : Nat × Nat) (h1 : s.1 < 255) (h2 : s.2 < 255) :
    Spec.finalize s < 65536 := by
  have ha : s.2 <<< 8 < 2 ^ 16 := by
    rw [Nat.shiftLeft_eq]; omega
  have hb : s.1 < 2 ^ 16 := by omega
  exact Nat.or_lt_two_pow ha hb

theorem copynFile_some (origin destination : FILE) (nBytes : Int) (crc : Nat) :
    copynFile (some origin) destination nBytes crc =
      { ret := (min nBytes.toNat origin.unread.length : Nat)
        origin := some { origin with pos := origin.pos + min nBytes.toNat origin.unread.length }
        destination := fwrite (origin.unread.take (min nBytes.toNat origin.unread.length))
          destination
        crc := Spec.fletcher16 (origin.unread.take (min nBytes.toNat origin.unread.length)) } := by
  simp only [copynFile, copyLoop_spec, Int.sub_zero, Int.zero_add]
  congr 1
  have h := foldl_update_lt (origin.unread.take (min nBytes.toNat origin.unread.length)) (0, 0)
    (by decide) (by decide)
  exact Nat.mod_eq_of_lt (finalize_lt _ h.1 h.2)

/-- C2: the checksum `copynFile` stores in `*crc` is the Fletcher-16 reference
of exactly the bytes it copied, the first `ret` unread bytes of the origin;
hence two copies of the same byte sequence store the same checksum whatever
their bounds, streams and destinations, and a copy of no byte stores 0x0000. -/
theorem copynFile_crc_is_fletcher16 (origin destination : FILE) (nBytes : Int) (crc : Nat) :
    (copynFile (some origin) destination nBytes crc).crc =
        Spec.fletcher16
          (origin.unread.take (copynFile (some origin) destination nBytes crc).ret.toNat)
    ∧ (∀ (origin2 destination2 : FILE) (nBytes2 : Int) (crc2 : Nat),
        origin2.unread.take (copynFile (some origin2) destination2 nBytes2 crc2).ret.toNat =
          origin.unread.take (copynFile (some origin) destination nBytes crc).ret.toNat →
        (copynFile (some origin2) destination2 nBytes2 crc2).crc =
          (copynFile (some origin) destination nBytes crc).crc)
    ∧ ((copynFile (some origin) destination nBytes crc).ret = 0 →
        (copynFile (some origin) destination nBytes crc).crc = 0) := by
  refine ⟨?_, ?_, ?_⟩
  · simp only [copynFile_some, Int.toNat_ofNat]
  · intro o2 d2 n2 c2 h
    simp only [copynFile_some, Int.toNat_ofNat] at h ⊢
    rw [h]
  · intro h
    simp only [copynFile_some] at h ⊢
    have h0 : min nBytes.toNat origin.unread.length = 0 := by exact_mod_cast h
    rw [h0, List.take_zero]
    rfl

/-- C2 at a concrete input: copying two bytes of `abc` and copying the whole of
`ab` store the same checksum, the Fletcher-16 value of `ab`. -/
theorem copynFile_crc_is_fletcher16_witness :
    (copynFile (some { data := bytes "abc", pos := 0, mode := Mode.rd })
        { data := [], pos := 0, mode := Mode.wr } 2 0x1234).crc = Spec.fletcher16 (bytes "ab")
    ∧ (copynFile (some { data := bytes "ab", pos := 0, mode := Mode.rd })
        { data := [7], pos := 1, mode := Mode.wr } INT_MAX 0).crc =
      (copynFile (some { data := bytes "abc", pos := 0, mode := Mode.rd })
        { data := [], pos := 0, mode := Mode.wr } 2 0x1234).crc :=
  ⟨(copynFile_crc_is_fletcher16 { data := bytes "abc", pos := 0, mode := Mode.rd }
      { data := [], pos := 0, mode := Mode.wr } 2 0x1234).1,
   (copynFile_crc_is_fletcher16 { data := bytes "abc", pos := 0, mode := Mode.rd }
      { data := [], pos := 0, mode := Mode.wr } 2 0x1234).2.1
      { data := bytes "ab", pos := 0, mode := Mode.rd } { data := [7], pos := 1, mode := Mode.wr }
      INT_MAX 0 (by decide)⟩

/-- C3: for a bound `nBytes >= 0`, an origin with `r` unread bytes and a
destination open for writing, `copynFile` returns `min(nBytes, r)`, stores
exactly the first `min(nBytes, r)` unread bytes at the position of the
destination (appending them when the position is the end of the file), and
advances the position of the origin by exactly that count; a short copy
returns the count `r`, not the error value. -/
theorem copynFile_copies_min (origin destination : FILE) (nBytes : Int) (crc : Nat)
    (hn : 0 ≤ nBytes) (hw : destination.mode = Mode.wr) :
    (copynFile (some origin) destination nBytes crc).ret = min nBytes origin.unread.length
    ∧ (copynFile (some origin) destination nBytes crc).destination =
        { destination with
          data := overwrite destination.data destination.pos
            (origin.unread.take (min nBytes.toNat origin.unread.length))
          pos := destination.pos + min nBytes.toNat origin.unread.length }
    ∧ (destination.pos = destination.data.length →
        (copynFile (some origin) destination nBytes crc).destination.data =
          destination.data ++ origin.unread.take (min nBytes.toNat origin.unread.length))
    ∧ (copynFile (some origin) destination nBytes crc).origin =
        some { origin with pos := origin.pos + min nBytes.toNat origin.unread.length }
    ∧ ((origin.unread.length : Int) < nBytes →
        (copynFile (some origin) destination nBytes crc).ret = origin.unread.length) := by
  have hmin : ((min nBytes.toNat origin.unread.length : Nat) : Int) =
      min nBytes origin.unread.length := by
    omega
  refine ⟨?_, ?_, ?_, ?_, ?_⟩
  · simp only [copynFile_some]; exact hmin
  · simp only [copynFile_some]
    rw [fwrite_wr _ _ hw]
    simp
  · intro hp
    simp only [copynFile_some]
    rw [fwrite_wr _ _ hw]
    simp only [hp, overwrite_at_end]
  · simp only [copynFile_some]
  · intro hlt
    simp only [copynFile_some]
    omega

/-- C3 at a concrete input: four unread bytes and the bound 3. -/
theorem copynFile_copies_min_witness :
    (copynFile (some { data := bytes "xabcd", pos := 1, mode := Mode.rd })
        { data := bytes "zz", pos := 2, mode := Mode.wr } 3 0).ret = 3
    ∧ (copynFile (some { data := bytes "xabcd", pos := 1, mode := Mode.rd })
        { data := bytes "zz", pos := 2, mode := Mode.wr } 3 0).destination.data = bytes "zzabc"
    ∧ (copynFile (some { data := bytes "xabcd", pos := 1, mode := Mode.rd })
        { data := bytes "zz", pos := 2, mode := Mode.wr } 3 0).origin =
      some { data := bytes "xabcd", pos := 4, mode := Mode.rd } := by
  have h := copynFile_copies_min { data := bytes "xabcd", pos := 1, mode := Mode.rd }
    { data := bytes "zz", pos := 2, mode := Mode.wr } 3 0 (by decide) rfl
  refine ⟨?_, ?_, ?_⟩
  · rw [h.1]; decide
  · rw [h.2.2.1 rfl]; decide
  · rw [h.2.2.2.1]; decide

/-! ## Header size -/

theorem toInt32_of_range (v : Int) (h0 : 0 ≤ v) (h1 : v ≤ INT_MAX) : toInt32 v = v := by
  unfold INT_MAX at h1
  unfold toInt32
  have : v % 4294967296 = v := Int.emod_eq_of_lt h0 (by omega)
  rw [this, if_pos (by omega)]

theorem foldl_names_no_overflow (names : List (List UInt8)) (acc : Int) (h0 : 0 ≤ acc)
    (h1 : acc + ((names.map (fun name => name.length + 1)).sum : Nat) ≤ INT_MAX) :
    names.foldl (fun acc name => toInt32 (acc + ((name.length : Int) + 1))) acc =
      acc + ((names.map (fun name => name.length + 1)).sum : Nat) := by
  induction names generalizing acc with
  | nil => simp
  | cons name rest ih =>
    simp only [List.map_cons, List.sum_cons, Nat.cast_add, Nat.cast_one] at h1
    rw [List.foldl_cons, toInt32_of_range _ (by omega) (by omega), ih _ (by omega) (by omega)]
    simp only [List.map_cons, List.sum_cons, Nat.cast_add, Nat.cast_one]
    omega

theorem headerSize_eq (names : List (List UInt8)) :
    Spec.headerSize names = 4 + 6 * names.length + (names.map (fun name => name.length + 1)).sum := by
  unfold Spec.headerSize
  induction names with
  | nil => simp
  | cons name rest ih =>
    simp only [List.map_cons, List.sum_cons, List.length_cons] at ih ⊢
    omega

theorem stHeaderBytes_eq (names : List (List UInt8)) (h : (Spec.headerSize names : Int) ≤ INT_MAX) :
    stHeaderBytes names = Spec.headerSize names := by
  rw [headerSize_eq] at h ⊢
  unfold stHeaderBytes
  have h2 : (0 : Int) ≤ ((names.map (fun name => name.length + 1)).sum : Nat) := Int.ofNat_nonneg _
  rw [Nat.cast_add, Nat.cast_add] at h
  rw [toInt32_of_range _ (by omega) (by omega), foldl_names_no_overflow _ _ (by omega) (by omega)]
  rw [Nat.cast_add, Nat.cast_add]
  omega

theorem length_toLE (width v : Nat) : (toLE width v).length = width := by
  induction width generalizing v with
  | zero => rfl
  | succ w ih => simp [toLE, ih]

theorem length_entryBytes (e : stHeaderEntry) : (entryBytes e).length = e.name.length + 1 + 4 + 2 := by
  simp [entryBytes, length_toLE]

theorem length_headerBytes (n : Nat) (stHeader : List stHeaderEntry) :
    (headerBytes n stHeader).length = Spec.headerSize (stHeader.map (fun e => e.name)) := by
  unfold headerBytes Spec.headerSize
  rw [List.length_append, length_toLE]
  congr 1
  induction stHeader with
  | nil => rfl
  | cons e rest ih =>
    simp only [List.map_cons, List.flatten_cons, List.length_append, List.sum_cons, ih,
      length_entryBytes]

theorem writeEntries_eq (stHeader : List stHeaderEntry) (f : FILE) :
    writeEntries stHeader f = fwrite (stHeader.map entryBytes).flatten f := by
  unfold writeEntries
  induction stHeader generalizing f with
  | nil => rfl
  | cons e rest ih =>
    rw [List.foldl_cons, ih]
    simp only [List.map_cons, List.flatten_cons, entryBytes, fwrite_append]

theorem write_header_eq (n : Nat) (stHeader : List stHeaderEntry) (f : FILE) :
    writeEntries stHeader (fwrite (toLE 4 n) f) = fwrite (headerBytes n stHeader) f := by
  rw [writeEntries_eq, headerBytes, fwrite_append]

/-! ## The data loop of createTar -/

theorem take_min_length (k : Nat) (l : List UInt8) : l.take (min k l.length) = l.take k := by
  by_cases h : k ≤ l.length
  · rw [Nat.min_eq_left h]
  · have h2 : l.length ≤ k := by omega
    rw [Nat.min_eq_right h2, List.take_of_length_le (Nat.le_refl _), List.take_of_length_le h2]

theorem fopenRead_some (fs : FS) (name c : List UInt8) (h : fs.files name = some c) :
    fopenRead fs name = some { data := c, pos := 0, mode := Mode.rd } := by
  simp [fopenRead, h]

theorem fopenRead_none (fs : FS) (name : List UInt8) (h : fs.files name = none) :
    fopenRead fs name = none := by
  simp [fopenRead, h]

theorem unread_rd (c : List UInt8) (p : Nat) :
    ({ data := c, pos := p, mode := Mode.rd } : FILE).unread = c.drop p := rfl

theorem copiedFrom_some (fs : FS) (name c : List UInt8) (h : fs.files name = some c) :
    copiedFrom fs name = c.take INT_MAX.toNat := by
  simp [copiedFrom, h]

theorem createLoop_cons_ok (fs : FS) (name : List UInt8) (rest : List (List UInt8)) (i : Nat)
    (dest : FILE) (crc : Nat) (stHeader : List stHeaderEntry) (out : List LogLine)
    (c : List UInt8) (hc : fs.files name = some c) (hfit : name.length ≤ sizeofCharPtr) :
    createLoop fs (name :: rest) i dest crc stHeader out =
      createLoop fs rest (i + 1) (fwrite (copiedFrom fs name) dest) (entryOf fs name).crc
        (stHeader ++ [entryOf fs name])
        (out ++ [LogLine.adding i name (entryOf fs name).size (entryOf fs name).crc]) := by
  have hk : (min INT_MAX.toNat c.length : Nat) ≤ 2147483647 := Nat.min_le_left _ _
  have hret : ¬ (((min INT_MAX.toNat c.length : Nat) : Int) = -1) := by omega
  have hsz : (((min INT_MAX.toNat c.length : Nat) : Int) % 4294967296).toNat =
      min INT_MAX.toNat c.length := by omega
  have hfit2 : ¬ (sizeofCharPtr + 1 < name.length + 1) := by omega
  rw [createLoop, fopenRead_some fs name c hc]
  simp only [copynFile_some, unread_rd, List.drop_zero, hret, if_false, hfit2, hsz,
    take_min_length, entryOf, copiedFrom_some fs name c hc, List.length_take]

theorem createLoop_packable (fs : FS) (names : List (List UInt8))
    (hp : packable fs names = true) (i : Nat) (dest : FILE) (crc : Nat)
    (stHeader : List stHeaderEntry) (out : List LogLine) :
    ∃ crc1 out1, createLoop fs names i dest crc stHeader out =
      DataLoop.finished (fwrite (dataSection fs names) dest) crc1
        (stHeader ++ names.map (entryOf fs)) out1 := by
  induction names generalizing i dest crc stHeader out with
  | nil => exact ⟨crc, out, by simp [createLoop, dataSection, fwrite_nil]⟩
  | cons name rest ih =>
    simp only [packable, List.all_cons, Bool.and_eq_true, decide_eq_true_eq] at hp
    obtain ⟨⟨hsome, hfit⟩, hrest⟩ := hp
    obtain ⟨c, hc⟩ := Option.isSome_iff_exists.mp hsome
    obtain ⟨crc1, out1, h⟩ := ih hrest (i + 1) (fwrite (copiedFrom fs name) dest)
      (entryOf fs name).crc (stHeader ++ [entryOf fs name])
      (out ++ [LogLine.adding i name (entryOf fs name).size (entryOf fs name).crc])
    refine ⟨crc1, out1, ?_⟩
    rw [createLoop_cons_ok fs name rest i dest crc stHeader out c hc hfit, h]
    simp [dataSection, fwrite_append]

theorem createLoop_not_packable (fs : FS) (names : List (List UInt8))
    (hp : packable fs names = false) (i : Nat) (dest : FILE) (crc : Nat)
    (stHeader : List stHeaderEntry) (out : List LogLine) :
    (∃ d o, createLoop fs names i dest crc stHeader out = DataLoop.failed d o) ∨
      createLoop fs names i dest crc stHeader out = DataLoop.undefined := by
  induction names generalizing i dest crc stHeader out with
  | nil => simp [packable] at hp
  | cons name rest ih =>
    cases hc : fs.files name with
    | none =>
      left
      rw [createLoop, fopenRead_none fs name hc]
      exact ⟨_, _, rfl⟩
    | some c =>
      by_cases hfit : name.length ≤ sizeofCharPtr
      · rw [createLoop_cons_ok fs name rest i dest crc stHeader out c hc hfit]
        apply ih
        simpa [packable, hc, hfit] using hp
      · right
        have hk : (min INT_MAX.toNat c.length : Nat) ≤ 2147483647 := Nat.min_le_left _ _
        have hret : ¬ (((min INT_MAX.toNat c.length : Nat) : Int) = -1) := by omega
        have hfit2 : sizeofCharPtr + 1 < name.length + 1 := by omega
        rw [createLoop, fopenRead_some fs name c hc]
        simp only [copynFile_some, unread_rd, List.drop_zero, hret, if_false, hfit2, if_true]

/-! ## createTar -/

theorem overwrite_reserved (hb data : List UInt8) (hne : hb ≠ []) :
    overwrite (overwrite [] hb.length data) 0 hb = hb ++ data := by
  cases hb with
  | nil => exact absurd rfl hne
  | cons b bs =>
    cases data with
    | nil => simp [overwrite]
    | cons d ds => simp [overwrite]

theorem headerBytes_ne_nil (n : Nat) (stHeader : List stHeaderEntry) :
    headerBytes n stHeader ≠ [] := by
  simp [headerBytes, toLE]

theorem map_name_entryOf (fs : FS) (names : List (List UInt8)) :
    (names.map (entryOf fs)).map (fun e => e.name) = names := by
  induction names with
  | nil => rfl
  | cons name rest ih =>
    rw [List.map_cons, List.map_cons, ih]
    rfl

theorem fopenWrite_ok (fs : FS) (name : List UInt8) (h : fs.writable name = true) :
    fopenWrite fs name = (some { data := [], pos := 0, mode := Mode.wr }, fs.store name []) := by
  simp [fopenWrite, h]

theorem fopenWrite_fail (fs : FS) (name : List UInt8) (h : fs.writable name = false) :
    fopenWrite fs name = (none, fs) := by
  simp [fopenWrite, h]

/-- What a run of `createTar` does when the archive can be created, every
source can be opened, every name fits its buffer and the header size is
representable as an `int`. -/
theorem createTar_packable (fs : FS) (names : List (List UInt8)) (tar : List UInt8)
    (hw : fs.writable tar = true) (hp : packable (fs.store tar []) names = true)
    (hint : (Spec.headerSize names : Int) ≤ INT_MAX) :
    ∃ out, createTar fs names tar = Outcome.returned
      { code := EXIT_SUCCESS
        fs := (fs.store tar []).store tar
          (headerBytes names.length (names.map (entryOf (fs.store tar []))) ++
            dataSection (fs.store tar []) names)
        out := out } := by
  obtain ⟨crc1, out1, hloop⟩ := createLoop_packable (fs.store tar []) names hp 0
    (fseekSet { data := [], pos := 0, mode := Mode.wr } (stHeaderBytes names)).2 0x1234 [] []
  refine ⟨out1 ++ [LogLine.created], ?_⟩
  have hlen : (headerBytes names.length (names.map (entryOf (fs.store tar [])))).length =
      Spec.headerSize names := by
    rw [length_headerBytes, map_name_entryOf]
  unfold createTar
  rw [fopenWrite_ok fs tar hw]
  simp only [hloop]
  rw [stHeaderBytes_eq names hint]
  simp only [fseekSet, Int.natCast_nonneg, if_true, Int.toNat_ofNat, le_refl, ne_eq,
    not_true_eq_false, if_false, write_header_eq, List.nil_append]
  rw [fwrite_wr (dataSection (fs.store tar []) names)
    { data := [], pos := Spec.headerSize names, mode := Mode.wr } rfl]
  rw [fwrite_wr _ _ rfl]
  simp only [← hlen]
  have h0 : Int.toNat 0 = 0 := rfl
  rw [h0, overwrite_reserved _ _ (headerBytes_ne_nil _ _)]

/-- A run of `createTar` that returns `EXIT_SUCCESS` created the archive,
opened every source and met no name longer than its buffer. -/
theorem createTar_success_inv (fs : FS) (names : List (List UInt8)) (tar : List UInt8)
    (h : (createTar fs names tar).code = some EXIT_SUCCESS) :
    fs.writable tar = true ∧ packable (fs.store tar []) names = true := by
  cases hw : fs.writable tar with
  | false =>
    rw [createTar, fopenWrite_fail fs tar hw] at h
    simp [Outcome.code] at h
  | true =>
    refine ⟨rfl, ?_⟩
    cases hp : packable (fs.store tar []) names with
    | true => rfl
    | false =>
      exfalso
      rw [createTar, fopenWrite_ok fs tar hw] at h
      rcases createLoop_not_packable (fs.store tar []) names hp 0
        (fseekSet { data := [], pos := 0, mode := Mode.wr } (stHeaderBytes names)).2 0x1234 [] []
        with ⟨d, o, hl⟩ | hl
      · simp only [hl, Outcome.code] at h
        simp [EXIT_FAILURE, EXIT_SUCCESS] at h
      · simp only [hl, Outcome.code] at h
        simp at h

/-! ## Reading from a stream -/

theorem unread_advance (f : FILE) (xs ys : List UInt8) (h : f.unread = xs ++ ys) :
    ({ f with pos := f.pos + xs.length } : FILE).unread = ys := by
  obtain ⟨data, pos, mode⟩ := f
  cases mode with
  | wr =>
    simp only [FILE.unread] at h ⊢
    have := List.append_eq_nil.mp h.symm
    exact this.2.symm
  | rd =>
    simp only [FILE.unread] at h ⊢
    rw [← List.drop_drop, h, List.drop_left]

theorem getc_cons (f : FILE) (b : UInt8) (post : List UInt8) (h : f.unread = b :: post) :
    getc f = (some b, { f with pos := f.pos + 1 }) := by
  simp [getc, h]

theorem getc_nil (f : FILE) (h : f.unread = []) : getc f = (none, f) := by
  simp [getc, h]

theorem unread_step (f : FILE) (b : UInt8) (post : List UInt8) (h : f.unread = b :: post) :
    ({ f with pos := f.pos + 1 } : FILE).unread = post :=
  unread_advance f [b] post h

theorem fread_front (f : FILE) (xs ys : List UInt8) (h : f.unread = xs ++ ys) :
    fread xs.length f = (xs, { f with pos := f.pos + xs.length }) := by
  simp [fread, h]

theorem loadstrFill_front (xs ys : List UInt8) (f : FILE) (h : f.unread = xs ++ ys) :
    loadstrFill xs.length f = (xs, { f with pos := f.pos + xs.length }) := by
  induction xs generalizing f with
  | nil => cases f; rfl
  | cons b bs ih =>
    have hg := getc_cons f b (bs ++ ys) h
    have hu := unread_step f b (bs ++ ys) h
    simp only [List.length_cons, loadstrFill, hg, charOfGetc, ih _ hu]
    congr 2
    omega

theorem loadstrScan_name (name post : List UInt8) (hz : ∀ b ∈ name, b ≠ 0) (fuel : Nat)
    (hfuel : name.length < fuel) (f : FILE) (k : Nat) (h : f.unread = name ++ 0 :: post) :
    loadstrScan fuel f k = some ({ f with pos := f.pos + (name.length + 1) }, k + name.length) := by
  induction name generalizing f k fuel with
  | nil =>
    cases fuel with
    | zero => omega
    | succ fuel =>
      have hg := getc_cons f 0 post h
      simp [loadstrScan, hg]
  | cons b bs ih =>
    cases fuel with
    | zero => omega
    | succ fuel =>
      have hg := getc_cons f b (bs ++ 0 :: post) h
      have hu := unread_step f b (bs ++ 0 :: post) h
      have hb : b ≠ 0 := hz b (List.mem_cons_self _ _)
      have hne : ¬ (some b = some (0 : UInt8)) := by simpa using hb
      rw [loadstrScan, hg]
      simp only [hne, if_false]
      rw [ih (fun c hc => hz c (List.mem_cons_of_mem _ hc)) fuel
        (by simp only [List.length_cons] at hfuel; omega) _ (k + 1) hu]
      simp only [List.length_cons]
      congr 2
      · congr 1; omega
      · omega

theorem cstr_terminated (name post : List UInt8) (hz : ∀ b ∈ name, b ≠ 0) :
    cstr (name ++ 0 :: post) = name := by
  induction name with
  | nil => simp [cstr]
  | cons b bs ih =>
    have hb : b ≠ 0 := hz b (List.mem_cons_self _ _)
    have h := ih (fun c hc => hz c (List.mem_cons_of_mem _ hc))
    simp only [cstr] at h
    simp [cstr, hb, h]

/-- On a stream whose unread bytes start with a non-empty name without zero
byte and its terminator, `loadstr` returns the name and its terminator and
leaves the stream behind the terminator. -/
theorem loadstr_name (name post : List UInt8) (hne : name ≠ []) (hz : ∀ b ∈ name, b ≠ 0)
    (fuel : Nat) (hfuel : name.length < fuel) (f : FILE) (h : f.unread = name ++ 0 :: post) :
    loadstr fuel f = some (some (name ++ [0]), { f with pos := f.pos + (name.length + 1) }) := by
  have hlen : name.length ≠ 0 := fun h0 => hne (List.length_eq_zero.mp h0)
  have hseek : (fseekCur ({ f with pos := f.pos + (name.length + 1) } : FILE)
      (-((((0 + name.length : Nat)) : Int) + 1))).2 = f := by
    obtain ⟨data, pos, mode⟩ := f
    have e : ((pos + (name.length + 1) : Nat) : Int) + -(((0 + name.length : Nat) : Int) + 1) =
        (pos : Int) := by push_cast; ring
    simp only [fseekCur, e, Int.natCast_nonneg, if_true, Int.toNat_ofNat]
  have hfill := loadstrFill_front (name ++ [0]) post f (by simpa using h)
  simp only [List.length_append, List.length_singleton] at hfill
  rw [loadstr, loadstrScan_name name post hz fuel hfuel f 0 h]
  simp only [Nat.zero_add] at hseek ⊢
  simp only [hlen, if_false, hseek, hfill]

/-! ## Integers in the header -/

theorem fromLE_toLE (width v : Nat) : fromLE (toLE width v) = v % 256 ^ width := by
  induction width generalizing v with
  | zero => simp [toLE, fromLE, Nat.mod_one]
  | succ w ih =>
    rw [toLE, fromLE, ih, toNat_ofNat8, Nat.mod_mod, pow_succ, Nat.mul_comm (256 ^ w) 256,
      Nat.mod_mul]

theorem fromLE_toLE_4 (v : Nat) (h : v < 4294967296) : fromLE (toLE 4 v) = v := by
  rw [fromLE_toLE]
  exact Nat.mod_eq_of_lt h

theorem fromLE_toLE_2 (v : Nat) (h : v < 65536) : fromLE (toLE 2 v) = v := by
  rw [fromLE_toLE]
  exact Nat.mod_eq_of_lt h

theorem overlay_full (got old : List UInt8) (h : old.length ≤ got.length) :
    overlay got old = got := by
  simp [overlay, List.drop_of_length_le h]

/-! ## readHeader on a written header -/

theorem readEntries_entries (fuel : Nat) (es : List stHeaderEntry)
    (hname : ∀ e ∈ es, e.name ≠ [] ∧ ∀ b ∈ e.name, b ≠ 0)
    (htype : ∀ e ∈ es, e.size < 4294967296 ∧ e.crc < 65536)
    (hfuel : ∀ e ∈ es, e.name.length < fuel)
    (post : List UInt8) (f : FILE) (h : f.unread = (es.map entryBytes).flatten ++ post)
    (fileSize crc : Nat) :
    readEntries fuel es.length f fileSize crc =
      some (some es, { f with pos := f.pos + (es.map entryBytes).flatten.length }) := by
  induction es generalizing f fileSize crc with
  | nil => cases f; simp [readEntries]
  | cons e rest ih =>
    obtain ⟨hne, hz⟩ := hname e (List.mem_cons_self _ _)
    obtain ⟨hsz, hcrc⟩ := htype e (List.mem_cons_self _ _)
    have hf := hfuel e (List.mem_cons_self _ _)
    have h1 : f.unread = e.name ++ 0 ::
        (toLE 4 e.size ++ (toLE 2 e.crc ++ ((rest.map entryBytes).flatten ++ post))) := by
      rw [h]; simp [entryBytes]
    have hload := loadstr_name e.name _ hne hz fuel hf f h1
    have h2 : ({ f with pos := f.pos + (e.name.length + 1) } : FILE).unread =
        toLE 4 e.size ++ (toLE 2 e.crc ++ ((rest.map entryBytes).flatten ++ post)) := by
      have := unread_advance f (e.name ++ [0]) _ (by simpa using h1)
      simpa using this
    have hr4 := fread_front _ _ _ h2
    rw [length_toLE] at hr4
    have h3 := unread_advance _ _ _ h2
    rw [length_toLE] at h3
    have hr2 := fread_front _ _ _ h3
    rw [length_toLE] at hr2
    have h4 := unread_advance _ _ _ h3
    rw [length_toLE] at h4
    have hrec := ih (fun x hx => hname x (List.mem_cons_of_mem _ hx))
      (fun x hx => htype x (List.mem_cons_of_mem _ hx))
      (fun x hx => hfuel x (List.mem_cons_of_mem _ hx)) _ h4 e.size e.crc
    have ho4 : overlay (toLE 4 e.size) (toLE 4 fileSize) = toLE 4 e.size :=
      overlay_full _ _ (by simp [length_toLE])
    have ho2 : overlay (toLE 2 e.crc) (toLE 2 crc) = toLE 2 e.crc :=
      overlay_full _ _ (by simp [length_toLE])
    have hcs : cstr (e.name ++ [0]) = e.name := cstr_terminated e.name [] hz
    simp only [List.length_cons, readEntries, hload, hr4, hr2, ho4, ho2, fromLE_toLE_4 _ hsz,
      fromLE_toLE_2 _ hcrc, hrec, hcs]
    simp only [List.map_cons, List.flatten_cons, List.length_append, length_entryBytes]
    congr 3
    omega

theorem readHeader_headerBytes (fuel : Nat) (es : List stHeaderEntry)
    (hname : ∀ e ∈ es, e.name ≠ [] ∧ ∀ b ∈ e.name, b ≠ 0)
    (htype : ∀ e ∈ es, e.size < 4294967296 ∧ e.crc < 65536)
    (hcount : es.length < 2147483648)
    (hfuel : ∀ e ∈ es, e.name.length < fuel)
    (post : List UInt8) (f : FILE) (h : f.unread = headerBytes es.length es ++ post) :
    readHeader fuel f =
      some (some (es, (es.length : Int)),
        { f with pos := f.pos + (headerBytes es.length es).length }) := by
  have h1 : f.unread = toLE 4 es.length ++ ((es.map entryBytes).flatten ++ post) := by
    rw [h, headerBytes, List.append_assoc]
  have hr := fread_front _ _ _ h1
  rw [length_toLE] at hr
  have h2 := unread_advance _ _ _ h1
  rw [length_toLE] at h2
  have hn : toInt32 (fromLE (toLE 4 es.length) : Nat) = (es.length : Int) := by
    rw [fromLE_toLE_4 _ (by omega)]
    exact toInt32_of_range _ (by omega) (by unfold INT_MAX; omega)
  have hrec := readEntries_entries fuel es hname htype hfuel post _ h2 0 0x1234
  have hlen4 : ¬ ((toLE 4 es.length).length < 4) := by simp [length_toLE]
  have hnn : ¬ ((es.length : Int) < 0) := by omega
  simp only [readHeader, hr, hlen4, if_false, hn, hnn, Int.toNat_ofNat, hrec]
  simp only [headerBytes, List.length_append, length_toLE]
  rw [Nat.add_assoc]

/-- C6: for every header whose names are non-empty without zero byte, whose
fields are in the range of their C types and whose count is in the range of
`int`, `readHeader` applied to a stream that starts with the bytes the header
loop of `createTar` writes for that header returns the same count and the
same records in the same order, and leaves the position at the end of the
header, where the data section starts.  Fuel beyond the longest name is
enough. -/
theorem readHeader_written_header (fuel : Nat) (stHeader : List stHeaderEntry)
    (dataBytes : List UInt8)
    (hname : ∀ e ∈ stHeader, e.name ≠ [] ∧ ∀ b ∈ e.name, b ≠ 0)
    (htype : ∀ e ∈ stHeader, e.size < 4294967296 ∧ e.crc < 65536)
    (hcount : stHeader.length < 2147483648)
    (hfuel : ∀ e ∈ stHeader, e.name.length < fuel) :
    readHeader fuel
        { data := (writeEntries stHeader (fwrite (toLE 4 stHeader.length)
            { data := [], pos := 0, mode := Mode.wr })).data ++ dataBytes
          pos := 0
          mode := Mode.rd } =
      some (some (stHeader, (stHeader.length : Int)),
        { data := (writeEntries stHeader (fwrite (toLE 4 stHeader.length)
            { data := [], pos := 0, mode := Mode.wr })).data ++ dataBytes
          pos := (writeEntries stHeader (fwrite (toLE 4 stHeader.length)
            { data := [], pos := 0, mode := Mode.wr })).data.length
          mode := Mode.rd }) := by
  have hw : (writeEntries stHeader (fwrite (toLE 4 stHeader.length)
      { data := [], pos := 0, mode := Mode.wr })).data = headerBytes stHeader.length stHeader := by
    rw [write_header_eq, fwrite_wr _ _ rfl]
    have := overwrite_at_end [] (headerBytes stHeader.length stHeader)
    simpa using this
  rw [hw]
  have := readHeader_headerBytes fuel stHeader hname htype hcount hfuel dataBytes
    { data := headerBytes stHeader.length stHeader ++ dataBytes, pos := 0, mode := Mode.rd }
    (by simp [FILE.unread])
  simpa using this

/-- C6 at a concrete input: the header of `a.txt` (3 bytes) and `b.txt` (empty)
followed by the data section `abc`. -/
theorem readHeader_written_header_witness :
    readHeader 6
        { data := (writeEntries exampleHeader (fwrite (toLE 4 exampleHeader.length)
            { data := [], pos := 0, mode := Mode.wr })).data ++ bytes "abc"
          pos := 0
          mode := Mode.rd } =
      some (some (exampleHeader, (exampleHeader.length : Int)),
        { data := (writeEntries exampleHeader (fwrite (toLE 4 exampleHeader.length)
            { data := [], pos := 0, mode := Mode.wr })).data ++ bytes "abc"
          pos := (writeEntries exampleHeader (fwrite (toLE 4 exampleHeader.length)
            { data := [], pos := 0, mode := Mode.wr })).data.length
          mode := Mode.rd }) :=
  readHeader_written_header 6 exampleHeader (bytes "abc")
    (by decide) (by decide) (by decide) (by decide)

/-! ## C4: the header fills the reserved space -/

/-- C4: in every run of `createTar` that returns `EXIT_SUCCESS`, with a header
size `4 + sum of (strlen(name) + 1 + 4 + 2)` representable as an `int`, the
offset computed and sought before any data is copied is that size; the header
loop, started at offset 0 on any stream open for writing, ends exactly at that
offset; and the archive is the header bytes, of that length, followed by the
data section, which the header does not overlap. -/
theorem createTar_header_fills_reserved_space (fs : FS) (fileNames : List (List UInt8))
    (tarName : List UInt8)
    (hrun : (createTar fs fileNames tarName).code = some EXIT_SUCCESS)
    (hint : (Spec.headerSize fileNames : Int) ≤ INT_MAX) :
    stHeaderBytes fileNames = Spec.headerSize fileNames
    ∧ (∀ dest : FILE, dest.mode = Mode.wr →
        ((writeEntries (fileNames.map (entryOf (fs.store tarName [])))
          (fwrite (toLE 4 fileNames.length) (fseekSet dest 0).2)).pos : Int) =
            stHeaderBytes fileNames)
    ∧ ((headerBytes fileNames.length
          (fileNames.map (entryOf (fs.store tarName [])))).length : Int) = stHeaderBytes fileNames
    ∧ (createTar fs fileNames tarName).file tarName =
        some (headerBytes fileNames.length (fileNames.map (entryOf (fs.store tarName []))) ++
          dataSection (fs.store tarName []) fileNames) := by
  obtain ⟨hw, hp⟩ := createTar_success_inv fs fileNames tarName hrun
  obtain ⟨out, hrun2⟩ := createTar_packable fs fileNames tarName hw hp hint
  have hlen : (headerBytes fileNames.length
      (fileNames.map (entryOf (fs.store tarName [])))).length = Spec.headerSize fileNames := by
    rw [length_headerBytes, map_name_entryOf]
  have hH := stHeaderBytes_eq fileNames hint
  refine ⟨hH, ?_, ?_, ?_⟩
  · intro dest hd
    have hd0 : (fseekSet dest 0).2 = { dest with pos := 0 } := by
      simp [fseekSet]
    rw [write_header_eq, hd0, fwrite_wr _ { dest with pos := 0 } hd, hH, hlen]
    simp
  · rw [hH, hlen]
  · rw [hrun2]
    simp [Outcome.file, FS.store]

/-- C4 at a concrete input: packing `a.txt` and `b.txt` into `o.mtar`. -/
theorem createTar_header_fills_reserved_space_witness :
    (createTar exampleFS [bytes "a.txt", bytes "b.txt"] (bytes "o.mtar")).code = some EXIT_SUCCESS
    ∧ stHeaderBytes [bytes "a.txt", bytes "b.txt"] = 28
    ∧ (createTar exampleFS [bytes "a.txt", bytes "b.txt"] (bytes "o.mtar")).file (bytes "o.mtar") =
        some (headerBytes 2 exampleHeader ++ bytes "abc") := by
  have h := createTar_header_fills_reserved_space exampleFS [bytes "a.txt", bytes "b.txt"]
    (bytes "o.mtar") (by decide) (by decide)
  refine ⟨by decide, ?_, ?_⟩
  · rw [h.1]; decide
  · rw [h.2.2.2]; decide

/-! ## Runs that end in undefined behaviour -/

/-- C1, failing input: packing `annual_report_2024_final_version.txt` and
`b.txt`, two existing files with distinct non-empty names.  The first name has
36 bytes, `strcpy` stores 37 bytes in the buffer of `sizeof(char*) + 1 = 9`
bytes and the run is undefined, so there is no archive to extract. -/
theorem createTar_long_name_undefined :
    (createTar
      (mkFS [(bytes "annual_report_2024_final_version.txt", bytes "hi"), (bytes "b.txt", [])])
      [bytes "annual_report_2024_final_version.txt", bytes "b.txt"]
      (bytes "o.mtar")).isUndefined = true
    ∧ (bytes "annual_report_2024_final_version.txt").length = 36
    ∧ sizeofCharPtr + 1 = 9 := by
  decide

/-- C5, failing input: packing `project_budget_2024_final_version.txt` (content
`abc`) and `b.txt` (content `hello`), both openable and short.  The first name
has 37 bytes, `strcpy` stores 38 bytes in its buffer of 9 bytes and overruns
the heap before the second source is packed: the run is undefined and does
not return `EXIT_SUCCESS`, so it leaves no archive of the stated layout. -/
theorem createTar_long_first_name_no_archive :
    ((mkFS [(bytes "project_budget_2024_final_version.txt", bytes "abc"),
        (bytes "b.txt", bytes "hello")]).files
      (bytes "project_budget_2024_final_version.txt")).isSome = true
    ∧ ((mkFS [(bytes "project_budget_2024_final_version.txt", bytes "abc"),
        (bytes "b.txt", bytes "hello")]).files (bytes "b.txt")).isSome = true
    ∧ (bytes "project_budget_2024_final_version.txt").length = 37
    ∧ sizeofCharPtr + 1 = 9
    ∧ (createTar
        (mkFS [(bytes "project_budget_2024_final_version.txt", bytes "abc"),
          (bytes "b.txt", bytes "hello")])
        [bytes "project_budget_2024_final_version.txt", bytes "b.txt"]
        (bytes "o.mtar")).isUndefined = true
    ∧ (createTar
        (mkFS [(bytes "project_budget_2024_final_version.txt", bytes "abc"),
          (bytes "b.txt", bytes "hello")])
        [bytes "project_budget_2024_final_version.txt", bytes "b.txt"]
        (bytes "o.mtar")).code ≠ some EXIT_SUCCESS := by
  decide

/-! ## extractTar and the stored checksums -/

/-- C7, failing input: the archive of `a.txt` and `b.txt` with one data byte of
`a.txt` changed.  The checksum of the copy, 0x4D28, differs from the stored
0x4C27, and `extractTar` prints `File is OK` for `a.txt`, with the checksum of
the copy in both lines, and returns `EXIT_SUCCESS`. -/
theorem extractTar_corrupted_reports_ok :
    (extractTar 6 (mkFS [(bytes "o.mtar", corruptedArchive)]) (bytes "o.mtar")).map
        (fun r => (r.code, r.out, r.fs.files (bytes "a.txt"), r.fs.files (bytes "b.txt"))) =
      some (EXIT_SUCCESS,
        [LogLine.creating 0 (bytes "a.txt") 3 0x4D28, LogLine.fileIsOK 0 0x4D28,
         LogLine.creating 1 (bytes "b.txt") 0 0, LogLine.fileIsOK 1 0],
        some (bytes "abd"), some [])
    ∧ Spec.fletcher16 (bytes "abd") = 0x4D28
    ∧ (readHeader 6 { data := corruptedArchive, pos := 0, mode := Mode.rd }).map
        (fun r => r.1.map (fun h => h.1.map (fun e => e.crc))) = some (some [0x4C27, 0]) := by
  decide

/-- C8, failing input: an archive that declares 3 bytes for `a` and holds 1.
`extractTar` creates `a` with 1 byte, prints `File is OK` and returns
`EXIT_SUCCESS`. -/
theorem extractTar_truncated_returns_success :
    (extractTar 2 (mkFS [(bytes "o.mtar", truncatedArchive)]) (bytes "o.mtar")).map
        (fun r => (r.code, r.out, r.fs.files (bytes "a"))) =
      some (EXIT_SUCCESS,
        [LogLine.creating 0 (bytes "a") 3 0x7878, LogLine.fileIsOK 0 0x7878],
        some (bytes "x")) := by
  decide

/-! ## readHeader on a truncated header -/

theorem loadstrScan_no_terminator (fuel : Nat) (f : FILE) (k : Nat)
    (hz : ∀ b ∈ f.unread, b ≠ 0) : loadstrScan fuel f k = none := by
  induction fuel generalizing f k with
  | zero => rfl
  | succ fuel ih =>
    cases hu : f.unread with
    | nil =>
      rw [loadstrScan, getc_nil f hu]
      simp only [reduceCtorEq, if_false]
      exact ih f (k + 1) hz
    | cons b post =>
      have hb : b ≠ 0 := hz b (by rw [hu]; exact List.mem_cons_self _ _)
      have hne : ¬ (some b = some (0 : UInt8)) := by simpa using hb
      rw [loadstrScan, getc_cons f b post hu]
      simp only [hne, if_false]
      apply ih
      intro c hc
      rw [unread_step f b post hu] at hc
      exact hz c (by rw [hu]; exact List.mem_cons_of_mem _ hc)

/-- When the stream ends before a terminator byte, `loadstr` does not return,
whatever the fuel. -/
theorem loadstr_no_terminator (fuel : Nat) (f : FILE) (hz : ∀ b ∈ f.unread, b ≠ 0) :
    loadstr fuel f = none := by
  rw [loadstr, loadstrScan_no_terminator fuel f 0 hz]

/-- When the count read is positive and the stream ends while the first name
is scanned, `readHeader` does not return, whatever the fuel. -/
theorem readHeader_no_terminator (fuel : Nat) (count name : List UInt8)
    (hlen : count.length = 4) (hpos : 0 < toInt32 (fromLE count))
    (hz : ∀ b ∈ name, b ≠ 0) :
    readHeader fuel { data := count ++ name, pos := 0, mode := Mode.rd } = none := by
  have hu : ({ data := count ++ name, pos := 0, mode := Mode.rd } : FILE).unread =
      count ++ name := rfl
  have hr := fread_front _ _ _ hu
  rw [hlen] at hr
  have h2 := unread_advance _ _ _ hu
  rw [hlen] at h2
  have hl := loadstr_no_terminator fuel _ (by rw [h2]; exact hz)
  obtain ⟨n, hn⟩ : ∃ n, (toInt32 (fromLE count)).toNat = n + 1 :=
    ⟨(toInt32 (fromLE count)).toNat - 1, by omega⟩
  have h4 : ¬ (count.length < 4) := by omega
  have hnn : ¬ (toInt32 (fromLE count) < 0) := by omega
  unfold readHeader
  simp only [hr, h4, if_false, hnn, hn]
  rw [readEntries, hl]

/-- C9, failing input: a stream whose count field is 1 and which ends after
the two name bytes `ab`, before any terminator.  `readHeader` does not return
within any fuel: the scanning loop of `loadstr` goes on at `EOF`. -/
theorem readHeader_hangs_on_unterminated_name (fuel : Nat) :
    readHeader fuel { data := [1, 0, 0, 0] ++ bytes "ab", pos := 0, mode := Mode.rd } = none :=
  readHeader_no_terminator fuel [1, 0, 0, 0] (bytes "ab") rfl (by decide) (by decide)

/-- C10, failing input: streams whose count field is 1 and that end after the
terminator of the name `a`, or inside the size field, or inside the checksum
field.  `readHeader` returns a header in each case; the record holds the
initial values 0 and 0x1234 of the two local variables where no byte was read,
and a mix of read and initial bytes where the field was cut. -/
theorem readHeader_accepts_cut_fields :
    readHeader 2 { data := [1, 0, 0, 0, 97, 0], pos := 0, mode := Mode.rd } =
      some (some ([{ name := bytes "a", size := 0, crc := 0x1234 }], 1),
        { data := [1, 0, 0, 0, 97, 0], pos := 6, mode := Mode.rd })
    ∧ readHeader 2 { data := [1, 0, 0, 0, 97, 0, 5, 0], pos := 0, mode := Mode.rd } =
      some (some ([{ name := bytes "a", size := 5, crc := 0x1234 }], 1),
        { data := [1, 0, 0, 0, 97, 0, 5, 0], pos := 8, mode := Mode.rd })
    ∧ readHeader 2 { data := [1, 0, 0, 0, 97, 0, 5, 0, 0, 0, 7], pos := 0, mode := Mode.rd } =
      some (some ([{ name := bytes "a", size := 5, crc := 0x1207 }], 1),
        { data := [1, 0, 0, 0, 97, 0, 5, 0, 0, 0, 7], pos := 11, mode := Mode.rd }) := by
  decide

/-! ## The extraction loop -/

theorem store_writable (fs : FS) (name data : List UInt8) :
    (fs.store name data).writable = fs.writable := rfl

theorem store_files_same (fs : FS) (name data : List UInt8) :
    (fs.store name data).files name = some data := by
  simp [FS.store]

theorem store_files_other (fs : FS) (name data other : List UInt8) (h : other ≠ name) :
    (fs.store name data).files other = fs.files other := by
  simp [FS.store, h]

theorem copied_count_ne_error (nBytes : Int) (tarFile : FILE) :
    ¬ (((min nBytes.toNat tarFile.unread.length : Nat) : Int) = -1) := by
  omega

theorem fwrite_fresh (bs : List UInt8) :
    (fwrite bs { data := [], pos := 0, mode := Mode.wr }).data = bs := by
  rw [fwrite_wr _ _ rfl]
  exact overwrite_at_end [] bs

theorem extractLoop_step (e : stHeaderEntry) (rest : List stHeaderEntry) (i : Nat)
    (tarFile : FILE) (fs : FS) (out : List LogLine) (hw : fs.writable e.name = true) :
    extractLoop (e :: rest) i tarFile fs out =
      extractLoop rest (i + 1)
        ((copynFile (some tarFile) { data := [], pos := 0, mode := Mode.wr }
          (toInt32 e.size) e.crc).origin.getD tarFile)
        ((fs.store e.name []).store e.name
          (copynFile (some tarFile) { data := [], pos := 0, mode := Mode.wr }
            (toInt32 e.size) e.crc).destination.data)
        (out ++ [LogLine.creating i e.name e.size
            (copynFile (some tarFile) { data := [], pos := 0, mode := Mode.wr }
              (toInt32 e.size) e.crc).crc,
          LogLine.fileIsOK i
            (copynFile (some tarFile) { data := [], pos := 0, mode := Mode.wr }
              (toInt32 e.size) e.crc).crc]) := by
  have hret : ¬ ((copynFile (some tarFile) { data := [], pos := 0, mode := Mode.wr }
      (toInt32 e.size) e.crc).ret = -1) := by
    rw [copynFile_some]
    exact copied_count_ne_error _ tarFile
  rw [extractLoop, fopenWrite_ok fs e.name hw]
  simp only [hret, if_false]

/-- One iteration of the extraction loop when the destination can be created:
the bytes copied are the first `min(size, unread)` bytes of the archive stream,
and neither the return path nor the lines printed look at the stored
checksum or at the number of bytes copied. -/
theorem extractLoop_cons (e : stHeaderEntry) (rest : List stHeaderEntry) (i : Nat)
    (tarFile : FILE) (fs : FS) (out : List LogLine) (hw : fs.writable e.name = true) :
    extractLoop (e :: rest) i tarFile fs out =
      extractLoop rest (i + 1)
        { tarFile with pos := tarFile.pos + min (toInt32 e.size).toNat tarFile.unread.length }
        ((fs.store e.name []).store e.name
          (tarFile.unread.take (min (toInt32 e.size).toNat tarFile.unread.length)))
        (out ++ [LogLine.creating i e.name e.size
            (Spec.fletcher16
              (tarFile.unread.take (min (toInt32 e.size).toNat tarFile.unread.length))),
          LogLine.fileIsOK i
            (Spec.fletcher16
              (tarFile.unread.take (min (toInt32 e.size).toNat tarFile.unread.length)))]) := by
  rw [extractLoop_step e rest i tarFile fs out hw, copynFile_some]
  simp only [Option.getD_some, fwrite_fresh]

/-- Whenever every destination can be created, the extraction loop returns
`EXIT_SUCCESS`, however many bytes the archive stream still holds. -/
theorem extractLoop_code (es : List stHeaderEntry) (i : Nat) (tarFile : FILE) (fs : FS)
    (out : List LogLine) (hw : ∀ e ∈ es, fs.writable e.name = true) :
    (extractLoop es i tarFile fs out).code = EXIT_SUCCESS := by
  induction es generalizing i tarFile fs out with
  | nil => rfl
  | cons e rest ih =>
    rw [extractLoop_cons e rest i tarFile fs out (hw e (List.mem_cons_self _ _))]
    apply ih
    intro x hx
    exact hw x (List.mem_cons_of_mem _ hx)

/-- The extraction loop never reads the stored checksums: two headers with
the same names and sizes give the same run. -/
theorem extractLoop_ignores_stored_crc (es : List stHeaderEntry) (g : stHeaderEntry → Nat)
    (i : Nat) (tarFile : FILE) (fs : FS) (out : List LogLine)
    (hw : ∀ e ∈ es, fs.writable e.name = true) :
    extractLoop (es.map (fun e => { e with crc := g e })) i tarFile fs out =
      extractLoop es i tarFile fs out := by
  induction es generalizing i tarFile fs out with
  | nil => rfl
  | cons e rest ih =>
    have hw1 := hw e (List.mem_cons_self _ _)
    rw [List.map_cons, extractLoop_cons e rest i tarFile fs out hw1,
      extractLoop_cons { e with crc := g e } _ i tarFile fs out hw1]
    apply ih
    intro x hx
    exact hw x (List.mem_cons_of_mem _ hx)

/-! ## Extraction of a packed archive -/

theorem fletcher16_lt (bs : List UInt8) : Spec.fletcher16 bs < 65536 := by
  have h := foldl_update_lt bs (0, 0) (by decide) (by decide)
  exact finalize_lt _ h.1 h.2

theorem length_copiedFrom_le (fs : FS) (name : List UInt8) :
    (copiedFrom fs name).length ≤ 2147483647 := by
  unfold copiedFrom
  rw [List.length_take]
  exact Nat.min_le_left _ _

theorem recreated_cons (src : FS) (name : List UInt8) (rest : List (List UInt8)) (fs : FS) :
    recreated src (name :: rest) fs =
      recreated src rest ((fs.store name []).store name (copiedFrom src name)) := rfl

theorem recreated_writable (src : FS) (names : List (List UInt8)) (fs : FS) :
    (recreated src names fs).writable = fs.writable := by
  induction names generalizing fs with
  | nil => rfl
  | cons name rest ih => rw [recreated_cons, ih]; rfl

theorem recreated_files_other (src : FS) (names : List (List UInt8)) (fs : FS)
    (other : List UInt8) (h : other ∉ names) :
    (recreated src names fs).files other = fs.files other := by
  induction names generalizing fs with
  | nil => rfl
  | cons name rest ih =>
    have hne : other ≠ name := fun e => h (e ▸ List.mem_cons_self _ _)
    have hrest : other ∉ rest := fun m => h (List.mem_cons_of_mem _ m)
    rw [recreated_cons, ih _ hrest, store_files_other _ _ _ _ hne, store_files_other _ _ _ _ hne]

theorem recreated_files_mem (src : FS) (names : List (List UInt8)) (fs : FS)
    (name : List UInt8) (hnd : names.Nodup) (h : name ∈ names) :
    (recreated src names fs).files name = some (copiedFrom src name) := by
  induction names generalizing fs with
  | nil => simp at h
  | cons head rest ih =>
    rw [recreated_cons]
    rw [List.nodup_cons] at hnd
    rcases List.mem_cons.mp h with heq | hmem
    · subst heq
      rw [recreated_files_other _ _ _ _ hnd.1, store_files_same]
    · exact ih _ hnd.2 hmem

/-- The extraction loop on the records of a packed archive, with the archive
stream at the start of the data section: every file is recreated with the
bytes copied from its source, and the lines printed carry the recorded
checksums. -/
theorem extractLoop_packed (src : FS) (names : List (List UInt8)) (post : List UInt8)
    (i : Nat) (tarFile : FILE) (fs : FS) (out : List LogLine)
    (hw : ∀ name ∈ names, fs.writable name = true)
    (h : tarFile.unread = dataSection src names ++ post) :
    extractLoop (names.map (entryOf src)) i tarFile fs out =
      { code := EXIT_SUCCESS
        fs := recreated src names fs
        out := out ++ extractLines src i names } := by
  induction names generalizing i tarFile fs out with
  | nil => simp [extractLoop, recreated, extractLines]
  | cons name rest ih =>
    have hlen := length_copiedFrom_le src name
    have h1 : tarFile.unread = copiedFrom src name ++ (dataSection src rest ++ post) := by
      rw [h]; simp [dataSection]
    have hsz : (toInt32 ((entryOf src name).size : Int)).toNat = (copiedFrom src name).length := by
      have : (entryOf src name).size = (copiedFrom src name).length := rfl
      rw [this, toInt32_of_range _ (by omega) (by unfold INT_MAX; omega)]
      rfl
    have hmin : min (copiedFrom src name).length tarFile.unread.length =
        (copiedFrom src name).length := by
      rw [h1, List.length_append]; omega
    have htake : tarFile.unread.take (copiedFrom src name).length = copiedFrom src name := by
      rw [h1, List.take_left]
    have hadv := unread_advance tarFile _ _ h1
    rw [List.map_cons, extractLoop_cons (entryOf src name) _ i tarFile fs out
      (hw name (List.mem_cons_self _ _))]
    rw [hsz, hmin, htake]
    rw [ih (i + 1) _ ((fs.store (entryOf src name).name []).store (entryOf src name).name
      (copiedFrom src name)) _ (fun n hn => hw n (List.mem_cons_of_mem _ hn)) hadv]
    simp [recreated_cons, extractLines, entryOf]

/-! ## Round trip for names that fit their buffer -/

theorem length_le_headerSize (names : List (List UInt8)) : names.length ≤ Spec.headerSize names := by
  rw [headerSize_eq]; omega

theorem entryOf_size_lt (src : FS) (name : List UInt8) :
    (entryOf src name).size < 4294967296 := by
  have h := length_copiedFrom_le src name
  have : (entryOf src name).size = (copiedFrom src name).length := rfl
  omega

theorem readHeader_packed (fuel : Nat) (src : FS) (names : List (List UInt8))
    (hnames : ∀ name ∈ names, name ≠ [] ∧ (∀ b ∈ name, b ≠ 0) ∧ name.length < fuel)
    (hcount : names.length < 2147483648) (post : List UInt8) :
    readHeader fuel
        { data := headerBytes names.length (names.map (entryOf src)) ++ post
          pos := 0
          mode := Mode.rd } =
      some (some (names.map (entryOf src), (names.length : Int)),
        { data := headerBytes names.length (names.map (entryOf src)) ++ post
          pos := (headerBytes names.length (names.map (entryOf src))).length
          mode := Mode.rd }) := by
  have hu : FILE.unread
      { data := headerBytes names.length (names.map (entryOf src)) ++ post
        pos := 0
        mode := Mode.rd } =
      headerBytes (names.map (entryOf src)).length (names.map (entryOf src)) ++ post := by
    rw [List.length_map]; rfl
  have hrd := readHeader_headerBytes fuel (names.map (entryOf src))
    (by
      intro e he
      obtain ⟨name, hn, rfl⟩ := List.mem_map.mp he
      exact ⟨(hnames name hn).1, (hnames name hn).2.1⟩)
    (by
      intro e he
      obtain ⟨name, hn, rfl⟩ := List.mem_map.mp he
      exact ⟨entryOf_size_lt src name, fletcher16_lt _⟩)
    (by rw [List.length_map]; exact hcount)
    (by
      intro e he
      obtain ⟨name, hn, rfl⟩ := List.mem_map.mp he
      exact (hnames name hn).2.2)
    post _ hu
  rw [hrd, List.length_map, Nat.zero_add]

theorem extractTar_of_header (fuel : Nat) (fs : FS) (tar content : List UInt8)
    (stHeader : List stHeaderEntry) (n : Int) (tarFile1 : FILE)
    (harch : fs.files tar = some content)
    (hrd : readHeader fuel { data := content, pos := 0, mode := Mode.rd } =
      some (some (stHeader, n), tarFile1)) :
    extractTar fuel fs tar = some (extractLoop stHeader 0 tarFile1 fs []) := by
  rw [extractTar, fopenRead_some fs tar _ harch]
  simp only [hrd]

/-- Reading back what `createTar` wrote: on the archive of a successful run,
`extractTar` with enough fuel parses the header, recreates every source and
returns `EXIT_SUCCESS`. -/
theorem extractTar_packed (fuel : Nat) (fs : FS) (src : FS) (names : List (List UInt8))
    (tar : List UInt8)
    (harch : fs.files tar =
      some (headerBytes names.length (names.map (entryOf src)) ++ dataSection src names))
    (hnames : ∀ name ∈ names, name ≠ [] ∧ (∀ b ∈ name, b ≠ 0) ∧ name.length < fuel ∧
      fs.writable name = true)
    (hcount : names.length < 2147483648) :
    extractTar fuel fs tar =
      some { code := EXIT_SUCCESS
             fs := recreated src names fs
             out := extractLines src 0 names } := by
  have hrd := readHeader_packed fuel src names
    (fun name hn => ⟨(hnames name hn).1, (hnames name hn).2.1, (hnames name hn).2.2.1⟩)
    hcount (dataSection src names)
  have hloop := extractLoop_packed src names [] 0
    { data := headerBytes names.length (names.map (entryOf src)) ++ dataSection src names
      pos := (headerBytes names.length (names.map (entryOf src))).length
      mode := Mode.rd } fs []
    (fun name hn => (hnames name hn).2.2.2)
    (by simp [FILE.unread])
  rw [extractTar_of_header fuel fs tar _ _ _ _ harch hrd, hloop, List.nil_append]

theorem packable_of_fit (fs : FS) (names : List (List UInt8))
    (h : ∀ name ∈ names, (fs.files name).isSome = true ∧ name.length ≤ sizeofCharPtr) :
    packable fs names = true := by
  unfold packable
  rw [List.all_eq_true]
  intro name hn
  simp only [Bool.and_eq_true, decide_eq_true_eq]
  exact h name hn

/-- Round trip whenever every name fits the buffer `createTar` allocates for
it (at most `sizeof(char*)` bytes): for sources with non-empty names without
zero byte, pairwise distinct and different from the archive name, each
shorter than `INT_MAX` bytes, `createTar` returns `EXIT_SUCCESS` and
`extractTar` on its archive returns `EXIT_SUCCESS`, recreates every file with
the same bytes and prints the checksums recorded at packing. -/
theorem roundtrip_of_fitting_names (fuel : Nat) (fs : FS) (names : List (List UInt8))
    (tar : List UInt8)
    (hw : fs.writable tar = true) (htar : tar ∉ names) (hnd : names.Nodup)
    (hnames : ∀ name ∈ names, name ≠ [] ∧ (∀ b ∈ name, b ≠ 0) ∧
      name.length ≤ sizeofCharPtr ∧ fs.writable name = true)
    (hfiles : ∀ name ∈ names, ∃ c, fs.files name = some c ∧ (c.length : Int) < INT_MAX)
    (hint : (Spec.headerSize names : Int) ≤ INT_MAX) (hfuel : sizeofCharPtr < fuel) :
    ∃ r1 r2, createTar fs names tar = Outcome.returned r1 ∧ r1.code = EXIT_SUCCESS
      ∧ extractTar fuel r1.fs tar = some r2 ∧ r2.code = EXIT_SUCCESS
      ∧ (∀ name ∈ names, r2.fs.files name = fs.files name)
      ∧ r2.out = extractLines (fs.store tar []) 0 names
      ∧ (∀ name ∈ names, (entryOf (fs.store tar []) name).crc =
          Spec.fletcher16 ((fs.files name).getD [])) := by
  have hsrc : ∀ name ∈ names, (fs.store tar []).files name = fs.files name := by
    intro name hn
    exact store_files_other _ _ _ _ (fun e => htar (e ▸ hn))
  have hcopied : ∀ name ∈ names, copiedFrom (fs.store tar []) name = (fs.files name).getD [] := by
    intro name hn
    obtain ⟨c, hc, hlen⟩ := hfiles name hn
    unfold copiedFrom
    rw [hsrc name hn, hc]
    apply List.take_of_length_le
    unfold INT_MAX at hlen
    have : INT_MAX.toNat = 2147483647 := rfl
    simp only [Option.getD_some]
    omega
  have hp : packable (fs.store tar []) names = true := by
    apply packable_of_fit
    intro name hn
    obtain ⟨c, hc, _⟩ := hfiles name hn
    rw [hsrc name hn, hc]
    exact ⟨rfl, (hnames name hn).2.2.1⟩
  obtain ⟨out, hrun⟩ := createTar_packable fs names tar hw hp hint
  have hcount : names.length < 2147483648 := by
    have := length_le_headerSize names
    unfold INT_MAX at hint
    omega
  have hext := extractTar_packed fuel
    ((fs.store tar []).store tar
      (headerBytes names.length (names.map (entryOf (fs.store tar []))) ++
        dataSection (fs.store tar []) names))
    (fs.store tar []) names tar (store_files_same _ _ _)
    (fun name hn => ⟨(hnames name hn).1, (hnames name hn).2.1,
      Nat.lt_of_le_of_lt (hnames name hn).2.2.1 hfuel, (hnames name hn).2.2.2⟩)
    hcount
  refine ⟨_, _, hrun, rfl, hext, rfl, ?_, rfl, ?_⟩
  · intro name hn
    obtain ⟨c, hc, _⟩ := hfiles name hn
    show (recreated _ names _).files name = fs.files name
    rw [recreated_files_mem _ _ _ _ hnd hn, hcopied name hn, hc]
    rfl
  · intro name hn
    show Spec.fletcher16 (copiedFrom (fs.store tar []) name) = _
    rw [hcopied name hn]

/-! ## The defects in general form -/

theorem createLoop_long_name (fs : FS) (names : List (List UInt8))
    (hopen : ∀ name ∈ names, (fs.files name).isSome = true)
    (hlong : ∃ name ∈ names, sizeofCharPtr < name.length) (i : Nat) (dest : FILE) (crc : Nat)
    (stHeader : List stHeaderEntry) (out : List LogLine) :
    createLoop fs names i dest crc stHeader out = DataLoop.undefined := by
  induction names generalizing i dest crc stHeader out with
  | nil =>
    obtain ⟨name, hn, _⟩ := hlong
    simp at hn
  | cons head rest ih =>
    obtain ⟨c, hc⟩ := Option.isSome_iff_exists.mp (hopen head (List.mem_cons_self _ _))
    by_cases hfit : head.length ≤ sizeofCharPtr
    · rw [createLoop_cons_ok fs head rest i dest crc stHeader out c hc hfit]
      apply ih (fun name hn => hopen name (List.mem_cons_of_mem _ hn))
      obtain ⟨name, hn, hl⟩ := hlong
      rcases List.mem_cons.mp hn with heq | hmem
      · subst heq; omega
      · exact ⟨name, hmem, hl⟩
    · have hret : ¬ (((min INT_MAX.toNat c.length : Nat) : Int) = -1) := by omega
      have hfit2 : sizeofCharPtr + 1 < head.length + 1 := by omega
      rw [createLoop, fopenRead_some fs head c hc]
      simp only [copynFile_some, unread_rd, List.drop_zero, hret, if_false, hfit2, if_true]

/-- The name-buffer defect in general form: when the archive can be
created and every source can be opened, one name longer than `sizeof(char*)`
bytes makes the run of `createTar` undefined. -/
theorem createTar_undefined_of_long_name (fs : FS) (names : List (List UInt8))
    (tar : List UInt8) (hw : fs.writable tar = true)
    (hopen : ∀ name ∈ names, ((fs.store tar []).files name).isSome = true)
    (hlong : ∃ name ∈ names, sizeofCharPtr < name.length) :
    createTar fs names tar = Outcome.undefined := by
  rw [createTar, fopenWrite_ok fs tar hw]
  simp only [createLoop_long_name (fs.store tar []) names hopen hlong]

/-- The missing test of short copies in general form: for every archive that starts with
a well-formed header, whatever follows the header, `extractTar` returns
`EXIT_SUCCESS` as soon as every destination can be created. -/
theorem extractTar_success_whatever_data (fuel : Nat) (fs : FS) (tar : List UInt8)
    (stHeader : List stHeaderEntry) (dataBytes : List UInt8)
    (harch : fs.files tar = some (headerBytes stHeader.length stHeader ++ dataBytes))
    (hname : ∀ e ∈ stHeader, e.name ≠ [] ∧ ∀ b ∈ e.name, b ≠ 0)
    (htype : ∀ e ∈ stHeader, e.size < 4294967296 ∧ e.crc < 65536)
    (hcount : stHeader.length < 2147483648)
    (hfuel : ∀ e ∈ stHeader, e.name.length < fuel)
    (hw : ∀ e ∈ stHeader, fs.writable e.name = true) :
    ∃ r, extractTar fuel fs tar = some r ∧ r.code = EXIT_SUCCESS := by
  have hrd := readHeader_headerBytes fuel stHeader hname htype hcount hfuel dataBytes
    { data := headerBytes stHeader.length stHeader ++ dataBytes, pos := 0, mode := Mode.rd } rfl
  exact ⟨_, extractTar_of_header fuel fs tar _ _ _ _ harch hrd, extractLoop_code _ _ _ _ _ hw⟩

theorem unread_drop (f : FILE) (k : Nat) :
    ({ f with pos := f.pos + k } : FILE).unread = f.unread.drop k := by
  obtain ⟨data, pos, mode⟩ := f
  cases mode with
  | wr => simp [FILE.unread]
  | rd => simp only [FILE.unread]; rw [List.drop_drop]

theorem extractLoop_out_ignores_stored_crc (es : List stHeaderEntry) (g : stHeaderEntry → Nat)
    (i : Nat) (tarFile1 tarFile2 : FILE) (fs1 fs2 : FS) (out : List LogLine)
    (hu : tarFile1.unread = tarFile2.unread)
    (hw1 : ∀ e ∈ es, fs1.writable e.name = true) (hw2 : ∀ e ∈ es, fs2.writable e.name = true) :
    (extractLoop (es.map (fun e => { e with crc := g e })) i tarFile1 fs1 out).out =
      (extractLoop es i tarFile2 fs2 out).out := by
  induction es generalizing i tarFile1 tarFile2 fs1 fs2 out with
  | nil => rfl
  | cons e rest ih =>
    rw [List.map_cons,
      extractLoop_cons e rest i tarFile2 fs2 out (hw2 e (List.mem_cons_self _ _)),
      extractLoop_cons { e with crc := g e } _ i tarFile1 fs1 out
        (hw1 e (List.mem_cons_self _ _))]
    simp only [hu]
    apply ih
    · rw [unread_drop, unread_drop, hu]
    · intro x hx; exact hw1 x (List.mem_cons_of_mem _ hx)
    · intro x hx; exact hw2 x (List.mem_cons_of_mem _ hx)

/-- The missing comparison of checksums in general form: replacing the checksums stored in a
well-formed header by any other 16-bit values changes neither the lines
`extractTar` prints nor its return value. -/
theorem extractTar_ignores_stored_crc (fuel : Nat) (fs1 fs2 : FS) (tar : List UInt8)
    (stHeader : List stHeaderEntry) (g : stHeaderEntry → Nat) (dataBytes : List UInt8)
    (harch1 : fs1.files tar = some (headerBytes stHeader.length
      (stHeader.map (fun e => { e with crc := g e })) ++ dataBytes))
    (harch2 : fs2.files tar = some (headerBytes stHeader.length stHeader ++ dataBytes))
    (hname : ∀ e ∈ stHeader, e.name ≠ [] ∧ ∀ b ∈ e.name, b ≠ 0)
    (htype : ∀ e ∈ stHeader, e.size < 4294967296 ∧ e.crc < 65536 ∧ g e < 65536)
    (hcount : stHeader.length < 2147483648)
    (hfuel : ∀ e ∈ stHeader, e.name.length < fuel)
    (hw1 : ∀ e ∈ stHeader, fs1.writable e.name = true)
    (hw2 : ∀ e ∈ stHeader, fs2.writable e.name = true) :
    ∃ r1 r2, extractTar fuel fs1 tar = some r1 ∧ extractTar fuel fs2 tar = some r2
      ∧ r1.out = r2.out ∧ r1.code = EXIT_SUCCESS ∧ r2.code = EXIT_SUCCESS := by
  have hrd2 := readHeader_headerBytes fuel stHeader hname
    (fun e he => ⟨(htype e he).1, (htype e he).2.1⟩) hcount hfuel dataBytes
    { data := headerBytes stHeader.length stHeader ++ dataBytes, pos := 0, mode := Mode.rd } rfl
  have hrd1 := readHeader_headerBytes fuel (stHeader.map (fun e => { e with crc := g e }))
    (by
      intro e he
      obtain ⟨x, hx, rfl⟩ := List.mem_map.mp he
      exact hname x hx)
    (by
      intro e he
      obtain ⟨x, hx, rfl⟩ := List.mem_map.mp he
      exact ⟨(htype x hx).1, (htype x hx).2.2⟩)
    (by rw [List.length_map]; exact hcount)
    (by
      intro e he
      obtain ⟨x, hx, rfl⟩ := List.mem_map.mp he
      exact hfuel x hx)
    dataBytes
    { data := headerBytes stHeader.length (stHeader.map (fun e => { e with crc := g e })) ++
        dataBytes
      pos := 0
      mode := Mode.rd }
    (by rw [List.length_map]; rfl)
  have hlen : (headerBytes stHeader.length
      (stHeader.map (fun e => { e with crc := g e }))).length =
      (headerBytes stHeader.length stHeader).length := by
    rw [length_headerBytes, length_headerBytes, List.map_map]
    rfl
  rw [List.length_map] at hrd1
  refine ⟨_, _, extractTar_of_header fuel fs1 tar _ _ _ _ harch1 hrd1,
    extractTar_of_header fuel fs2 tar _ _ _ _ harch2 hrd2, ?_, ?_, ?_⟩
  · apply extractLoop_out_ignores_stored_crc _ _ _ _ _ _ _ _ _ hw1 hw2
    simp only [FILE.unread, Nat.zero_add, List.drop_left]
  · apply extractLoop_code
    intro e he
    obtain ⟨x, hx, rfl⟩ := List.mem_map.mp he
    exact hw1 x hx
  · exact extractLoop_code _ _ _ _ _ hw2

theorem loadstrScan_out_of_fuel (name post : List UInt8) (hz : ∀ b ∈ name, b ≠ 0) (fuel : Nat)
    (hfuel : fuel ≤ name.length) (f : FILE) (k : Nat) (h : f.unread = name ++ post) :
    loadstrScan fuel f k = none := by
  induction fuel generalizing name f k with
  | zero => rfl
  | succ fuel ih =>
    cases name with
    | nil => simp at hfuel
    | cons b bs =>
      have hb : b ≠ 0 := hz b (List.mem_cons_self _ _)
      have hne : ¬ (some b = some (0 : UInt8)) := by simpa using hb
      rw [loadstrScan, getc_cons f b (bs ++ post) h]
      simp only [hne, if_false]
      exact ih bs (fun c hc => hz c (List.mem_cons_of_mem _ hc))
        (by simp only [List.length_cons] at hfuel; omega) _ (k + 1)
        (unread_step f b (bs ++ post) h)

theorem fread_all (f : FILE) (size : Nat) :
    fread size f = (f.unread.take size, { f with pos := f.pos + min size f.unread.length }) := by
  simp [fread, List.length_take]

/-- One iteration of the loop of `readHeader` on a stream whose unread bytes
start with a complete record. -/
theorem readEntries_succ_entry (fuel : Nat) (e : stHeaderEntry) (n : Nat) (post : List UInt8)
    (hne : e.name ≠ []) (hz : ∀ b ∈ e.name, b ≠ 0) (hsz : e.size < 4294967296)
    (hcrc : e.crc < 65536) (hfuel : e.name.length < fuel)
    (f : FILE) (h : f.unread = entryBytes e ++ post) (fileSize crc : Nat) :
    readEntries fuel (n + 1) f fileSize crc =
      match readEntries fuel n { f with pos := f.pos + (entryBytes e).length } e.size e.crc with
      | none => none
      | some (none, f4) => some (none, f4)
      | some (some entries, f4) => some (some (e :: entries), f4) := by
  have h1 : f.unread = e.name ++ 0 :: (toLE 4 e.size ++ (toLE 2 e.crc ++ post)) := by
    rw [h]; simp [entryBytes]
  have hload := loadstr_name e.name _ hne hz fuel hfuel f h1
  have h2 : ({ f with pos := f.pos + (e.name.length + 1) } : FILE).unread =
      toLE 4 e.size ++ (toLE 2 e.crc ++ post) := by
    have := unread_advance f (e.name ++ [0]) _ (by simpa using h1)
    simpa using this
  have hr4 := fread_front _ _ _ h2
  rw [length_toLE] at hr4
  have h3 := unread_advance _ _ _ h2
  rw [length_toLE] at h3
  have hr2 := fread_front _ _ _ h3
  rw [length_toLE] at hr2
  have ho4 : overlay (toLE 4 e.size) (toLE 4 fileSize) = toLE 4 e.size :=
    overlay_full _ _ (by simp [length_toLE])
  have ho2 : overlay (toLE 2 e.crc) (toLE 2 crc) = toLE 2 e.crc :=
    overlay_full _ _ (by simp [length_toLE])
  have hcs : cstr (e.name ++ [0]) = e.name := cstr_terminated e.name [] hz
  have hpos : f.pos + (e.name.length + 1) + 4 + 2 = f.pos + (entryBytes e).length := by
    rw [length_entryBytes]; omega
  simp only [readEntries, hload, hr4, hr2, ho4, ho2, fromLE_toLE_4 _ hsz, fromLE_toLE_2 _ hcrc,
    hcs, hpos]

theorem readEntries_unterminated (fuel : Nat) (es : List stHeaderEntry) (name : List UInt8)
    (hname : ∀ e ∈ es, e.name ≠ [] ∧ ∀ b ∈ e.name, b ≠ 0)
    (htype : ∀ e ∈ es, e.size < 4294967296 ∧ e.crc < 65536)
    (hz : ∀ b ∈ name, b ≠ 0) (n : Nat) (hn : es.length < n)
    (f : FILE) (h : f.unread = (es.map entryBytes).flatten ++ name) (fileSize crc : Nat) :
    readEntries fuel n f fileSize crc = none := by
  induction es generalizing n f fileSize crc with
  | nil =>
    obtain ⟨m, rfl⟩ : ∃ m, n = m + 1 := ⟨n - 1, by simp only [List.length_nil] at hn; omega⟩
    have hl := loadstr_no_terminator fuel f (by rw [h]; simpa using hz)
    rw [readEntries, hl]
  | cons e rest ih =>
    obtain ⟨m, rfl⟩ : ∃ m, n = m + 1 := ⟨n - 1, by simp only [List.length_cons] at hn; omega⟩
    obtain ⟨hne, hze⟩ := hname e (List.mem_cons_self _ _)
    obtain ⟨hsz, hcrc⟩ := htype e (List.mem_cons_self _ _)
    have h1 : f.unread = entryBytes e ++ ((rest.map entryBytes).flatten ++ name) := by
      rw [h]; simp
    by_cases hfuel : e.name.length < fuel
    · rw [readEntries_succ_entry fuel e m _ hne hze hsz hcrc hfuel f h1]
      rw [ih (fun x hx => hname x (List.mem_cons_of_mem _ hx))
        (fun x hx => htype x (List.mem_cons_of_mem _ hx)) m
        (by simp only [List.length_cons] at hn; omega) _ (unread_advance f _ _ h1)]
    · have h2 : f.unread = e.name ++ (0 :: (toLE 4 e.size ++ toLE 2 e.crc ++
          ((rest.map entryBytes).flatten ++ name))) := by
        rw [h1]; simp [entryBytes]
      have hs := loadstrScan_out_of_fuel e.name _ hze fuel (by omega) f 0 h2
      rw [readEntries, loadstr, hs]

/-- The missing test of `EOF` in general form: when the count field claims more
records than the complete records that follow it and the stream ends inside
the next name, `readHeader` does not return, whatever the fuel. -/
theorem readHeader_unterminated (fuel : Nat) (count : Nat) (es : List stHeaderEntry)
    (name : List UInt8)
    (hname : ∀ e ∈ es, e.name ≠ [] ∧ ∀ b ∈ e.name, b ≠ 0)
    (htype : ∀ e ∈ es, e.size < 4294967296 ∧ e.crc < 65536)
    (hz : ∀ b ∈ name, b ≠ 0) (hcount : es.length < count) (hint : count < 2147483648) :
    readHeader fuel
      { data := toLE 4 count ++ ((es.map entryBytes).flatten ++ name)
        pos := 0
        mode := Mode.rd } = none := by
  have hu : FILE.unread
      { data := toLE 4 count ++ ((es.map entryBytes).flatten ++ name)
        pos := 0
        mode := Mode.rd } = toLE 4 count ++ ((es.map entryBytes).flatten ++ name) := rfl
  have hr := fread_front _ _ _ hu
  rw [length_toLE] at hr
  have h2 := unread_advance _ _ _ hu
  rw [length_toLE] at h2
  have hn : toInt32 (fromLE (toLE 4 count) : Nat) = (count : Int) := by
    rw [fromLE_toLE_4 _ (by omega)]
    exact toInt32_of_range _ (by omega) (by unfold INT_MAX; omega)
  have hrec := readEntries_unterminated fuel es name hname htype hz count hcount _ h2 0 0x1234
  have hlen4 : ¬ ((toLE 4 count).length < 4) := by simp [length_toLE]
  have hnn : ¬ ((count : Int) < 0) := by omega
  unfold readHeader
  simp only [hr, hlen4, if_false, hn, hnn, Int.toNat_ofNat, hrec]

/-- The missing test of the two `fread` calls in general form: when the stream ends at most five
bytes after the terminator of the only name, `readHeader` returns a header;
what the stream did not deliver of the size and of the checksum are the
bytes of the initial values 0 and 0x1234 of the local variables. -/
theorem readHeader_accepts_short_fields (fuel : Nat) (name found : List UInt8)
    (hne : name ≠ []) (hz : ∀ b ∈ name, b ≠ 0) (hfuel : name.length < fuel)
    (hshort : found.length < 6) :
    readHeader fuel { data := toLE 4 1 ++ (name ++ 0 :: found), pos := 0, mode := Mode.rd } =
      some (some ([{ name := name
                     size := fromLE (overlay (found.take 4) (toLE 4 0))
                     crc := fromLE (overlay ((found.drop 4).take 2) (toLE 2 0x1234)) }], 1),
        { data := toLE 4 1 ++ (name ++ 0 :: found)
          pos := (toLE 4 1 ++ (name ++ 0 :: found)).length
          mode := Mode.rd }) := by
  have hu : FILE.unread { data := toLE 4 1 ++ (name ++ 0 :: found), pos := 0, mode := Mode.rd } =
      toLE 4 1 ++ (name ++ 0 :: found) := rfl
  have hr := fread_front _ _ _ hu
  rw [length_toLE] at hr
  have h2 := unread_advance _ _ _ hu
  rw [length_toLE] at h2
  have hload := loadstr_name name found hne hz fuel hfuel _ h2
  have h3 : FILE.unread { data := toLE 4 1 ++ (name ++ 0 :: found)
                          pos := 0 + 4 + (name.length + 1)
                          mode := Mode.rd } = found := by
    have := unread_advance _ (name ++ [0]) found (by simpa using h2)
    simpa using this
  have hcs : cstr (name ++ [0]) = name := cstr_terminated name [] hz
  have hlen4 : ¬ ((toLE 4 1).length < 4) := by simp [length_toLE]
  have hn : toInt32 (fromLE (toLE 4 1) : Nat) = 1 := by decide
  have h1 : Int.toNat 1 = 0 + 1 := rfl
  have hf4 := fread_all
    { data := toLE 4 1 ++ (name ++ 0 :: found), pos := 0 + 4 + (name.length + 1), mode := Mode.rd }
    4
  rw [h3] at hf4
  have h4 := unread_drop
    { data := toLE 4 1 ++ (name ++ 0 :: found), pos := 0 + 4 + (name.length + 1), mode := Mode.rd }
    (min 4 found.length)
  rw [h3] at h4
  have hd : found.drop (min 4 found.length) = found.drop 4 := by
    by_cases hc : 4 ≤ found.length
    · rw [Nat.min_eq_left hc]
    · have hle : found.length ≤ 4 := by omega
      rw [Nat.min_eq_right hle, List.drop_of_length_le (Nat.le_refl _),
        List.drop_of_length_le hle]
  rw [hd] at h4
  have hf2 := fread_all
    { data := toLE 4 1 ++ (name ++ 0 :: found)
      pos := 0 + 4 + (name.length + 1) + min 4 found.length
      mode := Mode.rd } 2
  rw [h4] at hf2
  have hpos : 0 + 4 + (name.length + 1) + min 4 found.length + min 2 (found.drop 4).length =
      (toLE 4 1 ++ (name ++ 0 :: found)).length := by
    simp only [List.length_append, List.length_cons, length_toLE, List.length_drop]
    omega
  rw [hpos] at hf2
  unfold readHeader
  simp only [hr, hlen4, if_false, hn, Int.reduceLT, h1]
  rw [readEntries, hload]
  simp only [readEntries, hf4, hf2, hcs]

/-! ## The accumulators of the checksum -/

theorem update_zero_eq_update_ff (s : Nat × Nat) : Spec.update s 0 = Spec.update s 255 := by
  have h0 : (0 : UInt8).toNat = 0 := rfl
  have h255 : (255 : UInt8).toNat = 255 := rfl
  simp only [Spec.update, h0, h255, Nat.add_zero, Nat.add_mod_right]

theorem fletcher16_zero_ff (pre post : List UInt8) :
    Spec.fletcher16 (pre ++ 0 :: post) = Spec.fletcher16 (pre ++ 255 :: post) := by
  simp only [Spec.fletcher16, List.foldl_append, List.foldl_cons, update_zero_eq_update_ff]

theorem take_insert (k : Nat) (pre post : List UInt8) (x : UInt8) :
    (pre ++ x :: post).take k =
      if k ≤ pre.length then pre.take k else pre ++ x :: post.take (k - pre.length - 1) := by
  by_cases h : k ≤ pre.length
  · rw [if_pos h, List.take_append_of_le_length h]
  · rw [if_neg h, List.take_append_eq_append_take, List.take_of_length_le (by omega)]
    obtain ⟨j, hj⟩ : ∃ j, k - pre.length = j + 1 := ⟨k - pre.length - 1, by omega⟩
    rw [hj, List.take_succ_cons]
    simp

theorem fletcher16_take_zero_ff (k : Nat) (pre post : List UInt8) :
    Spec.fletcher16 ((pre ++ 0 :: post).take k) = Spec.fletcher16 ((pre ++ 255 :: post).take k) := by
  rw [take_insert, take_insert]
  by_cases h : k ≤ pre.length
  · rw [if_pos h, if_pos h]
  · rw [if_neg h, if_neg h, fletcher16_zero_ff]

/-- C16: for every byte sequence and every position holding the byte 0x00,
replacing that byte by 0xFF leaves unchanged the checksum `copynFile` stores,
whatever the bound, the destination and the old value of `*crc`; the two
sequences differ, so the checksum does not detect this single-byte change. -/
theorem copynFile_crc_blind_to_zero_ff (pre post : List UInt8) (nBytes : Int)
    (destination1 destination2 : FILE) (crc1 crc2 : Nat) :
    (copynFile (some { data := pre ++ 0 :: post, pos := 0, mode := Mode.rd })
        destination1 nBytes crc1).crc =
      (copynFile (some { data := pre ++ 255 :: post, pos := 0, mode := Mode.rd })
        destination2 nBytes crc2).crc
    ∧ (copynFile (some { data := pre ++ 0 :: post, pos := 0, mode := Mode.rd })
        destination1 nBytes crc1).ret =
      (copynFile (some { data := pre ++ 255 :: post, pos := 0, mode := Mode.rd })
        destination2 nBytes crc2).ret
    ∧ pre ++ 0 :: post ≠ pre ++ 255 :: post
    ∧ Spec.fletcher16 (pre ++ 0 :: post) = Spec.fletcher16 (pre ++ 255 :: post) := by
  have hlen : (pre ++ (0 : UInt8) :: post).length = (pre ++ (255 : UInt8) :: post).length := by
    simp
  refine ⟨?_, ?_, ?_, fletcher16_zero_ff pre post⟩
  · simp only [copynFile_some, unread_rd, List.drop_zero, hlen, fletcher16_take_zero_ff]
  · simp only [copynFile_some, unread_rd, List.drop_zero, hlen]
  · intro h
    have h2 := List.append_cancel_left h
    have h3 : (0 : UInt8) = 255 := (List.cons.inj h2).1
    exact absurd h3 (by decide)

theorem copyLoop_sums_lt (nBytes : Int) (unread : List UInt8) (s : CopyState)
    (h1 : s.sum1 < 255) (h2 : s.sum2 < 255) :
    (copyLoop nBytes unread s).sum1 < 255 ∧ (copyLoop nBytes unread s).sum2 < 255 := by
  rw [copyLoop_spec]
  exact foldl_update_lt _ (s.sum1, s.sum2) h1 h2

theorem copynFile_crc_eq (origin destination : FILE) (nBytes : Int) (crc : Nat) :
    (copynFile (some origin) destination nBytes crc).crc =
      (copyLoop nBytes origin.unread
        { totalBytes := 0, sum1 := 0, sum2 := 0, origin := origin,
          destination := destination }).sum2 * 256 +
      (copyLoop nBytes origin.unread
        { totalBytes := 0, sum1 := 0, sum2 := 0, origin := origin,
          destination := destination }).sum1 := by
  obtain ⟨h1, h2⟩ := copyLoop_sums_lt nBytes origin.unread
    { totalBytes := 0, sum1 := 0, sum2 := 0, origin := origin, destination := destination }
    (Nat.zero_lt_succ _) (Nat.zero_lt_succ _)
  simp only [copynFile]
  generalize (copyLoop nBytes origin.unread
    { totalBytes := 0, sum1 := 0, sum2 := 0, origin := origin,
      destination := destination }).sum1 = a at h1 ⊢
  generalize (copyLoop nBytes origin.unread
    { totalBytes := 0, sum1 := 0, sum2 := 0, origin := origin,
      destination := destination }).sum2 = b at h2 ⊢
  have hor : b <<< 8 ||| a = b * 256 + a := by
    have hkey := Nat.mul_add_lt_is_or (show a < 2 ^ 8 by omega) b
    rw [Nat.shiftLeft_eq, Nat.mul_comm b (2 ^ 8), ← hkey]
  rw [hor]
  exact Nat.mod_eq_of_lt (by omega)

/-- C18: for every origin, destination and bound, hence after every byte of
every input (the bound stops the loop after any number of bytes), both
accumulators of `copynFile` are in the range 0..254; the checksum stored is
`sum2 * 256 + sum1`, so neither its high byte nor its low byte is 0xFF; and
the sums formed for a further byte stay below 2^16, so the stores into the
`uint16_t` accumulators lose nothing. -/
theorem copynFile_accumulators_in_range (origin destination : FILE) (nBytes : Int)
    (crc : Nat) :
    (copyLoop nBytes origin.unread
        { totalBytes := 0, sum1 := 0, sum2 := 0, origin := origin,
          destination := destination }).sum1 ≤ 254
    ∧ (copyLoop nBytes origin.unread
        { totalBytes := 0, sum1 := 0, sum2 := 0, origin := origin,
          destination := destination }).sum2 ≤ 254
    ∧ (copynFile (some origin) destination nBytes crc).crc % 256 =
        (copyLoop nBytes origin.unread
          { totalBytes := 0, sum1 := 0, sum2 := 0, origin := origin,
            destination := destination }).sum1
    ∧ (copynFile (some origin) destination nBytes crc).crc / 256 =
        (copyLoop nBytes origin.unread
          { totalBytes := 0, sum1 := 0, sum2 := 0, origin := origin,
            destination := destination }).sum2
    ∧ (copynFile (some origin) destination nBytes crc).crc % 256 ≠ 255
    ∧ (copynFile (some origin) destination nBytes crc).crc / 256 ≠ 255
    ∧ (∀ b : UInt8,
        (copyLoop nBytes origin.unread
          { totalBytes := 0, sum1 := 0, sum2 := 0, origin := origin,
            destination := destination }).sum1 + b.toNat < 65536
        ∧ (copyLoop nBytes origin.unread
          { totalBytes := 0, sum1 := 0, sum2 := 0, origin := origin,
            destination := destination }).sum2 +
          ((copyLoop nBytes origin.unread
            { totalBytes := 0, sum1 := 0, sum2 := 0, origin := origin,
              destination := destination }).sum1 + b.toNat) % 255 < 65536
        ∧ ((copyLoop nBytes origin.unread
            { totalBytes := 0, sum1 := 0, sum2 := 0, origin := origin,
              destination := destination }).sum1 + b.toNat) % 255 % 65536 =
          ((copyLoop nBytes origin.unread
            { totalBytes := 0, sum1 := 0, sum2 := 0, origin := origin,
              destination := destination }).sum1 + b.toNat) % 255) := by
  obtain ⟨h1, h2⟩ := copyLoop_sums_lt nBytes origin.unread
    { totalBytes := 0, sum1 := 0, sum2 := 0, origin := origin, destination := destination }
    (Nat.zero_lt_succ _) (Nat.zero_lt_succ _)
  have hcrc := copynFile_crc_eq origin destination nBytes crc
  refine ⟨by omega, by omega, by omega, by omega, by omega, by omega, ?_⟩
  intro b
  have hb : b.toNat < 256 := UInt8.toNat_lt_size b
  refine ⟨by omega, by omega, by omega⟩

/-! ## Copies with a bound that is not positive -/

theorem copynFile_nonpositive (origin destination : FILE) (nBytes : Int) (crc : Nat)
    (hn : nBytes ≤ 0) :
    copynFile (some origin) destination nBytes crc =
      { ret := 0, origin := some origin, destination := destination, crc := 0 } := by
  have h0 : nBytes.toNat = 0 := by omega
  rw [copynFile_some, h0]
  simp only [Nat.zero_min, List.take_zero, fwrite_nil, Nat.add_zero]
  rfl

theorem toInt32_negative (size : Nat) (h1 : 2147483648 ≤ size) (h2 : size < 4294967296) :
    toInt32 (size : Int) = (size : Int) - 4294967296 := by
  unfold toInt32
  have : (size : Int) % 4294967296 = size := Int.emod_eq_of_lt (by omega) (by omega)
  rw [this, if_neg (by omega)]

/-- C17: a stored size of at least 2^31 reaches `copynFile` as a negative
`int`; in the iteration of `extractTar` for such a record the file is created
empty, `File is OK` is printed with the checksum 0x0000 and the archive stream
is passed on at the same position; and every call of `copynFile` with
`nBytes <= 0` returns 0, leaves both streams as they are and sets the
checksum to 0x0000. -/
theorem extractTar_negative_size_copies_nothing (e : stHeaderEntry)
    (rest : List stHeaderEntry) (i : Nat) (tarFile : FILE) (fs : FS) (out : List LogLine)
    (hsize : 2147483648 ≤ e.size) (htype : e.size < 4294967296)
    (hw : fs.writable e.name = true) :
    toInt32 (e.size : Int) < 0
    ∧ extractLoop (e :: rest) i tarFile fs out =
        extractLoop rest (i + 1) tarFile ((fs.store e.name []).store e.name [])
          (out ++ [LogLine.creating i e.name e.size 0, LogLine.fileIsOK i 0])
    ∧ (∀ (origin destination : FILE) (nBytes : Int) (crc : Nat), nBytes ≤ 0 →
        copynFile (some origin) destination nBytes crc =
          { ret := 0, origin := some origin, destination := destination, crc := 0 }) := by
  have hneg : toInt32 (e.size : Int) < 0 := by
    rw [toInt32_negative e.size hsize htype]; omega
  refine ⟨hneg, ?_, fun o d n c hn => copynFile_nonpositive o d n c hn⟩
  rw [extractLoop_step e rest i tarFile fs out hw,
    copynFile_nonpositive tarFile _ _ e.crc (Int.le_of_lt hneg)]
  rfl

/-- C17 at a concrete input: a record of size 2^31 in front of the data `abc`;
nothing is copied, the file `a` is created empty and the next record would
read from the same position. -/
theorem extractTar_negative_size_copies_nothing_witness :
    toInt32 ((2147483648 : Nat) : Int) < 0
    ∧ (extractLoop [{ name := bytes "a", size := 2147483648, crc := 7 }] 0
        { data := bytes "abc", pos := 0, mode := Mode.rd } (mkFS []) []).fs.files (bytes "a") =
        some []
    ∧ (copynFile (some { data := bytes "abc", pos := 0, mode := Mode.rd })
        { data := [], pos := 0, mode := Mode.wr } (-1) 7).ret = 0 := by
  have h := extractTar_negative_size_copies_nothing
    { name := bytes "a", size := 2147483648, crc := 7 } [] 0
    { data := bytes "abc", pos := 0, mode := Mode.rd } (mkFS []) [] (by decide) (by decide) rfl
  refine ⟨h.1, ?_, ?_⟩
  · rw [h.2.1]; decide
  · rw [h.2.2 _ _ (-1) 7 (by decide)]

/-! ## Writes that fail -/

theorem copynFile_ret_error_iff (origin : Option FILE) (destination : FILE) (nBytes : Int)
    (crc : Nat) : (copynFile origin destination nBytes crc).ret = -1 ↔ origin = none := by
  cases origin with
  | none => simp [copynFile]
  | some o =>
    rw [copynFile_some]
    exact ⟨fun h => absurd h (copied_count_ne_error nBytes o), fun h => by simp at h⟩

/-- The missing test of `putc` in general form: on a destination that accepts
no byte, `copynFile` still returns the number of bytes read from the origin,
and the destination is unchanged. -/
theorem copynFile_ignores_failed_writes (origin destination : FILE) (nBytes : Int) (crc : Nat)
    (hd : destination.mode = Mode.rd) :
    (∀ b : UInt8, (putc b destination).1 = none)
    ∧ (copynFile (some origin) destination nBytes crc).ret =
        (min nBytes.toNat origin.unread.length : Nat)
    ∧ (copynFile (some origin) destination nBytes crc).destination = destination := by
  refine ⟨fun b => by rw [putc_rd b destination hd], ?_, ?_⟩
  · rw [copynFile_some]
  · rw [copynFile_some]
    exact fwrite_rd _ _ hd

/-- C13, failing input: three bytes to copy to a destination on which every
`putc` fails (a stream opened for reading).  No byte is written, and
`copynFile` returns the count 3, not the error value -1. -/
theorem copynFile_returns_count_when_writes_fail :
    (putc 97 { data := bytes "zz", pos := 0, mode := Mode.rd }).1 = none
    ∧ (copynFile (some { data := bytes "abc", pos := 0, mode := Mode.rd })
        { data := bytes "zz", pos := 0, mode := Mode.rd } 3 0).ret = 3
    ∧ (copynFile (some { data := bytes "abc", pos := 0, mode := Mode.rd })
        { data := bytes "zz", pos := 0, mode := Mode.rd } 3 0).destination =
      { data := bytes "zz", pos := 0, mode := Mode.rd } := by
  decide

/-! ## Headers that readHeader rejects -/

theorem loadstr_empty_name (fuel : Nat) (hfuel : 0 < fuel) (f : FILE) (post : List UInt8)
    (h : f.unread = 0 :: post) :
    loadstr fuel f = some (none, { f with pos := f.pos + 1 }) := by
  obtain ⟨k, rfl⟩ : ∃ k, fuel = k + 1 := ⟨fuel - 1, by omega⟩
  have hg := getc_cons f 0 post h
  simp [loadstr, loadstrScan, hg]

theorem readEntries_empty_name (fuel : Nat) (hfuel : 0 < fuel) (es : List stHeaderEntry)
    (post : List UInt8)
    (hname : ∀ e ∈ es, e.name ≠ [] ∧ ∀ b ∈ e.name, b ≠ 0)
    (htype : ∀ e ∈ es, e.size < 4294967296 ∧ e.crc < 65536)
    (hlen : ∀ e ∈ es, e.name.length < fuel) (n : Nat) (hn : es.length < n)
    (f : FILE) (h : f.unread = (es.map entryBytes).flatten ++ 0 :: post) (fileSize crc : Nat) :
    readEntries fuel n f fileSize crc =
      some (none, { f with pos := f.pos + (es.map entryBytes).flatten.length + 1 }) := by
  induction es generalizing n f fileSize crc with
  | nil =>
    obtain ⟨m, rfl⟩ : ∃ m, n = m + 1 := ⟨n - 1, by simp only [List.length_nil] at hn; omega⟩
    have hl := loadstr_empty_name fuel hfuel f post (by simpa using h)
    rw [readEntries, hl]
    rfl
  | cons e rest ih =>
    obtain ⟨m, rfl⟩ : ∃ m, n = m + 1 := ⟨n - 1, by simp only [List.length_cons] at hn; omega⟩
    obtain ⟨hne, hze⟩ := hname e (List.mem_cons_self _ _)
    obtain ⟨hsz, hcrc⟩ := htype e (List.mem_cons_self _ _)
    have h1 : f.unread = entryBytes e ++ ((rest.map entryBytes).flatten ++ 0 :: post) := by
      rw [h]; simp
    rw [readEntries_succ_entry fuel e m _ hne hze hsz hcrc (hlen e (List.mem_cons_self _ _)) f h1]
    rw [ih (fun x hx => hname x (List.mem_cons_of_mem _ hx))
      (fun x hx => htype x (List.mem_cons_of_mem _ hx))
      (fun x hx => hlen x (List.mem_cons_of_mem _ hx)) m
      (by simp only [List.length_cons] at hn; omega) _ (unread_advance f _ _ h1)]
    simp only [List.map_cons, List.flatten_cons, List.length_append, Nat.add_assoc]

theorem readHeader_short_count (fuel : Nat) (f : FILE) (h : f.unread.length < 4) :
    readHeader fuel f = some (none, { f with pos := f.pos + f.unread.length }) := by
  have hlt : (fread 4 f).1.length < 4 := by
    simp only [fread, List.length_take]; omega
  have hpos : (fread 4 f).2 = { f with pos := f.pos + f.unread.length } := by
    simp only [fread, List.length_take]
    rw [Nat.min_eq_right (by omega)]
  rw [readHeader, if_pos hlt, hpos]

theorem readHeader_empty_name (fuel : Nat) (hfuel : 0 < fuel) (count : Nat)
    (es : List stHeaderEntry) (post : List UInt8)
    (hname : ∀ e ∈ es, e.name ≠ [] ∧ ∀ b ∈ e.name, b ≠ 0)
    (htype : ∀ e ∈ es, e.size < 4294967296 ∧ e.crc < 65536)
    (hlen : ∀ e ∈ es, e.name.length < fuel)
    (hcount : es.length < count) (hint : count < 2147483648) :
    readHeader fuel
        { data := toLE 4 count ++ ((es.map entryBytes).flatten ++ 0 :: post)
          pos := 0
          mode := Mode.rd } =
      some (none,
        { data := toLE 4 count ++ ((es.map entryBytes).flatten ++ 0 :: post)
          pos := 4 + (es.map entryBytes).flatten.length + 1
          mode := Mode.rd }) := by
  have hu : FILE.unread
      { data := toLE 4 count ++ ((es.map entryBytes).flatten ++ 0 :: post)
        pos := 0
        mode := Mode.rd } = toLE 4 count ++ ((es.map entryBytes).flatten ++ 0 :: post) := rfl
  have hr := fread_front _ _ _ hu
  rw [length_toLE] at hr
  have h2 := unread_advance _ _ _ hu
  rw [length_toLE] at h2
  have hn : toInt32 (fromLE (toLE 4 count) : Nat) = (count : Int) := by
    rw [fromLE_toLE_4 _ (by omega)]
    exact toInt32_of_range _ (by omega) (by unfold INT_MAX; omega)
  have hrec := readEntries_empty_name fuel hfuel es post hname htype hlen count hcount _ h2
    0 0x1234
  have hlen4 : ¬ ((toLE 4 count).length < 4) := by simp [length_toLE]
  have hnn : ¬ ((count : Int) < 0) := by omega
  unfold readHeader
  simp only [hr, hlen4, if_false, hn, hnn, Int.toNat_ofNat, hrec, Nat.zero_add]

/-- In the calls in which `malloc` returns the array: `readHeader` returns
`NULL` whenever the stream holds fewer than 4 bytes for the count field,
whatever the fuel; and whenever the count field, a positive `int`, is
followed by fewer complete records than it claims and then by a terminator
byte where the next name should start, with any fuel above the lengths of the
names before it. -/
theorem readHeader_rejects_short_count_and_empty_name :
    (∀ (fuel : Nat) (tarFile : FILE), tarFile.unread.length < 4 →
      readHeader fuel tarFile =
        some (none, { tarFile with pos := tarFile.pos + tarFile.unread.length }))
    ∧ (∀ (fuel count : Nat) (stHeader : List stHeaderEntry) (post : List UInt8),
        0 < fuel →
        (∀ e ∈ stHeader, e.name ≠ [] ∧ ∀ b ∈ e.name, b ≠ 0) →
        (∀ e ∈ stHeader, e.size < 4294967296 ∧ e.crc < 65536) →
        (∀ e ∈ stHeader, e.name.length < fuel) →
        stHeader.length < count → count < 2147483648 →
        readHeader fuel
            { data := toLE 4 count ++ ((stHeader.map entryBytes).flatten ++ 0 :: post)
              pos := 0
              mode := Mode.rd } =
          some (none,
            { data := toLE 4 count ++ ((stHeader.map entryBytes).flatten ++ 0 :: post)
              pos := 4 + (stHeader.map entryBytes).flatten.length + 1
              mode := Mode.rd })) :=
  ⟨readHeader_short_count,
   fun fuel count stHeader post hfuel hname htype hlen hcount hint =>
     readHeader_empty_name fuel hfuel count stHeader post hname htype hlen hcount hint⟩

/-- Two streams that `readHeader` rejects: one of 3 bytes; and one with count
2, the record of `a.txt` and then a terminator byte in place of the second
name. -/
theorem readHeader_rejects_short_count_and_empty_name_witness :
    readHeader 0 { data := [2, 0, 0], pos := 0, mode := Mode.rd } =
      some (none, { data := [2, 0, 0], pos := 3, mode := Mode.rd })
    ∧ readHeader 6
        { data := toLE 4 2 ++
            (([{ name := bytes "a.txt", size := 3, crc := 0x4C27 }].map entryBytes).flatten ++
              0 :: bytes "xyz")
          pos := 0
          mode := Mode.rd } =
      some (none,
        { data := toLE 4 2 ++
            (([{ name := bytes "a.txt", size := 3, crc := 0x4C27 }].map entryBytes).flatten ++
              0 :: bytes "xyz")
          pos := 4 +
            ([{ name := bytes "a.txt", size := 3, crc := 0x4C27 }].map entryBytes).flatten.length +
            1
          mode := Mode.rd }) :=
  ⟨readHeader_rejects_short_count_and_empty_name.1 0
      { data := [2, 0, 0], pos := 0, mode := Mode.rd } (by decide),
   readHeader_rejects_short_count_and_empty_name.2 6 2
      [{ name := bytes "a.txt", size := 3, crc := 0x4C27 }] (bytes "xyz")
      (by decide) (by decide) (by decide) (by decide) (by decide) (by decide)⟩

/-! ## The scenario of a.txt and b.txt -/

set_option maxRecDepth 4000 in
/-- C12: `createTar` on `a.txt` (content `abc`) and `b.txt` (empty) returns
`EXIT_SUCCESS` and writes an archive of 31 bytes: a header of
4 + 2 * (5 + 1 + 4 + 2) = 28 bytes, from which `readHeader` returns the count 2
and the records (`a.txt`, 3, 0x4C27) and (`b.txt`, 0, 0x0000) with 0x4C27 the
Fletcher-16 checksum of `abc`, followed by the data section `abc`.
`extractTar` on that archive, in the file system of the run or in one that
holds the archive alone, returns `EXIT_SUCCESS` and recreates `a.txt` with
content `abc` and `b.txt` empty. -/
theorem scenario_a_txt_b_txt :
    (createTar (mkFS [(bytes "a.txt", bytes "abc"), (bytes "b.txt", [])])
      [bytes "a.txt", bytes "b.txt"] (bytes "o.mtar")).code = some EXIT_SUCCESS
    ∧ (createTar (mkFS [(bytes "a.txt", bytes "abc"), (bytes "b.txt", [])])
      [bytes "a.txt", bytes "b.txt"] (bytes "o.mtar")).file (bytes "o.mtar") =
        some ([2, 0, 0, 0] ++ bytes "a.txt" ++ [0, 3, 0, 0, 0, 0x27, 0x4C] ++
          bytes "b.txt" ++ [0, 0, 0, 0, 0, 0, 0] ++ bytes "abc")
    ∧ readHeader 6
        { data := [2, 0, 0, 0] ++ bytes "a.txt" ++ [0, 3, 0, 0, 0, 0x27, 0x4C] ++
            bytes "b.txt" ++ [0, 0, 0, 0, 0, 0, 0] ++ bytes "abc"
          pos := 0
          mode := Mode.rd } =
        some (some ([{ name := bytes "a.txt", size := 3, crc := 0x4C27 },
                     { name := bytes "b.txt", size := 0, crc := 0x0000 }], 2),
          { data := [2, 0, 0, 0] ++ bytes "a.txt" ++ [0, 3, 0, 0, 0, 0x27, 0x4C] ++
              bytes "b.txt" ++ [0, 0, 0, 0, 0, 0, 0] ++ bytes "abc"
            pos := 28
            mode := Mode.rd })
    ∧ Spec.fletcher16 (bytes "abc") = 0x4C27
    ∧ stHeaderBytes [bytes "a.txt", bytes "b.txt"] = 4 + 2 * (5 + 1 + 4 + 2)
    ∧ ([2, 0, 0, 0] ++ bytes "a.txt" ++ [0, 3, 0, 0, 0, 0x27, 0x4C] ++
        bytes "b.txt" ++ [0, 0, 0, 0, 0, 0, 0] ++ bytes "abc").drop 28 = bytes "abc"
    ∧ ((createTar (mkFS [(bytes "a.txt", bytes "abc"), (bytes "b.txt", [])])
        [bytes "a.txt", bytes "b.txt"] (bytes "o.mtar")).extract 6 (bytes "o.mtar")).map
          (fun r => (r.code, r.fs.files (bytes "a.txt"), r.fs.files (bytes "b.txt"))) =
        some (EXIT_SUCCESS, some (bytes "abc"), some [])
    ∧ (extractTar 6
        (mkFS [(bytes "o.mtar", [2, 0, 0, 0] ++ bytes "a.txt" ++ [0, 3, 0, 0, 0, 0x27, 0x4C] ++
          bytes "b.txt" ++ [0, 0, 0, 0, 0, 0, 0] ++ bytes "abc")]) (bytes "o.mtar")).map
          (fun r => (r.code, r.fs.files (bytes "a.txt"), r.fs.files (bytes "b.txt"))) =
        some (EXIT_SUCCESS, some (bytes "abc"), some []) := by
  refine ⟨?_, ?_, ?_, ?_, ?_, ?_, ?_, ?_⟩
  · decide
  · decide
  · decide
  · decide
  · decide
  · decide
  · decide
  · decide

/-! ## The names createTar records -/

theorem baseName_eq_self_iff (path : List UInt8) :
    Spec.baseName path = path ↔ ∀ c ∈ path, c ≠ 47 := by
  unfold Spec.baseName
  constructor
  · intro h c hc
    have h2 : path.reverse.takeWhile (fun c => c != 47) = path.reverse := by
      have := congrArg List.reverse h
      simpa using this
    have h3 := List.takeWhile_eq_self_iff.mp h2 c (List.mem_reverse.mpr hc)
    simpa using h3
  · intro h
    have h2 : path.reverse.takeWhile (fun c => c != 47) = path.reverse := by
      apply List.takeWhile_eq_self_iff.mpr
      intro c hc
      simpa using h c (List.mem_reverse.mp hc)
    rw [h2, List.reverse_reverse]

theorem recordedNames_of_header (fuel : Nat) (o : Outcome) (tar content : List UInt8)
    (stHeader : List stHeaderEntry) (n : Int) (tarFile1 : FILE)
    (hfile : o.file tar = some content)
    (hrd : readHeader fuel { data := content, pos := 0, mode := Mode.rd } =
      some (some (stHeader, n), tarFile1)) :
    recordedNames fuel o tar = some (stHeader.map (fun e => e.name)) := by
  unfold recordedNames
  rw [hfile]
  simp only [hrd]

theorem recordedNames_packable (fuel : Nat) (fs : FS) (names : List (List UInt8))
    (tar : List UInt8) (hw : fs.writable tar = true)
    (hp : packable (fs.store tar []) names = true)
    (hint : (Spec.headerSize names : Int) ≤ INT_MAX)
    (hnames : ∀ name ∈ names, name ≠ [] ∧ (∀ b ∈ name, b ≠ 0) ∧ name.length < fuel) :
    recordedNames fuel (createTar fs names tar) tar = some names := by
  obtain ⟨out, hrun⟩ := createTar_packable fs names tar hw hp hint
  have hcount : names.length < 2147483648 := by
    have := length_le_headerSize names
    unfold INT_MAX at hint
    omega
  have hrd := readHeader_packed fuel (fs.store tar []) names hnames hcount
    (dataSection (fs.store tar []) names)
  have hfile : (createTar fs names tar).file tar =
      some (headerBytes names.length (names.map (entryOf (fs.store tar []))) ++
        dataSection (fs.store tar []) names) := by
    rw [hrun]
    exact store_files_same _ _ _
  rw [recordedNames_of_header fuel _ tar _ _ _ _ hfile hrd, map_name_entryOf]

/-- C11 as amended: in every run of `createTar` that returns `EXIT_SUCCESS`,
with a header size representable as an `int`, the name recorded for each
source is the source path as it was passed: the archive is the header of the
records of the paths followed by the data, `readHeader` finds exactly the
paths as record names when they are non-empty without zero byte, and a
recorded name is the base name of its path exactly when the path holds no
`/`. -/
theorem createTar_records_source_path (fs : FS) (fileNames : List (List UInt8))
    (tarName : List UInt8)
    (hrun : (createTar fs fileNames tarName).code = some EXIT_SUCCESS)
    (hint : (Spec.headerSize fileNames : Int) ≤ INT_MAX) :
    (createTar fs fileNames tarName).file tarName =
        some (headerBytes fileNames.length (fileNames.map (entryOf (fs.store tarName []))) ++
          dataSection (fs.store tarName []) fileNames)
    ∧ (fileNames.map (entryOf (fs.store tarName []))).map (fun e => e.name) = fileNames
    ∧ (∀ fuel : Nat, sizeofCharPtr < fuel →
        (∀ name ∈ fileNames, name ≠ [] ∧ ∀ b ∈ name, b ≠ 0) →
        recordedNames fuel (createTar fs fileNames tarName) tarName = some fileNames)
    ∧ (∀ name ∈ fileNames, Spec.baseName name = name ↔ ∀ c ∈ name, c ≠ 47) := by
  obtain ⟨hw, hp⟩ := createTar_success_inv fs fileNames tarName hrun
  obtain ⟨out, hrun2⟩ := createTar_packable fs fileNames tarName hw hp hint
  refine ⟨?_, map_name_entryOf _ _, ?_, fun name _ => baseName_eq_self_iff name⟩
  · rw [hrun2]
    simp [Outcome.file, FS.store]
  · intro fuel hfuel hnames
    apply recordedNames_packable fuel fs fileNames tarName hw hp hint
    intro name hn
    have hfit : name.length ≤ sizeofCharPtr := by
      have := List.all_eq_true.mp hp name hn
      simp only [Bool.and_eq_true, decide_eq_true_eq] at this
      exact this.2
    exact ⟨(hnames name hn).1, (hnames name hn).2, Nat.lt_of_le_of_lt hfit hfuel⟩

/-- C11 as amended, at a concrete input: packing `d/a.txt` records `d/a.txt`. -/
theorem createTar_records_source_path_witness :
    (createTar (mkFS [(bytes "d/a.txt", bytes "abc")]) [bytes "d/a.txt"]
      (bytes "o.mtar")).code = some EXIT_SUCCESS
    ∧ recordedNames 9 (createTar (mkFS [(bytes "d/a.txt", bytes "abc")]) [bytes "d/a.txt"]
      (bytes "o.mtar")) (bytes "o.mtar") = some [bytes "d/a.txt"] :=
  ⟨by decide,
   (createTar_records_source_path (mkFS [(bytes "d/a.txt", bytes "abc")]) [bytes "d/a.txt"]
      (bytes "o.mtar") (by decide) (by decide)).2.2.1 9 (by decide) (by decide)⟩

/-- C11, counterexample: packing the existing file `d/a.txt` returns
`EXIT_SUCCESS`, and the name `readHeader` finds in the archive is `d/a.txt`,
which is not the base name `a.txt` of the path. -/
theorem createTar_does_not_record_base_name :
    (createTar (mkFS [(bytes "d/a.txt", bytes "abc")]) [bytes "d/a.txt"]
      (bytes "o.mtar")).code = some EXIT_SUCCESS
    ∧ Spec.baseName (bytes "d/a.txt") = bytes "a.txt"
    ∧ recordedNames 9 (createTar (mkFS [(bytes "d/a.txt", bytes "abc")]) [bytes "d/a.txt"]
        (bytes "o.mtar")) (bytes "o.mtar") ≠
      some ([bytes "d/a.txt"].map Spec.baseName) := by
  decide

/-! ## Sources that cannot be opened -/

theorem packable_cons (fs : FS) (name : List UInt8) (rest : List (List UInt8)) :
    packable fs (name :: rest) = true ↔
      ((fs.files name).isSome = true ∧ name.length ≤ sizeofCharPtr) ∧ packable fs rest = true := by
  simp only [packable, List.all_cons, Bool.and_eq_true, decide_eq_true_eq]

theorem createLoop_unopenable (fs : FS) (before : List (List UInt8)) (missing : List UInt8)
    (after : List (List UInt8)) (hp : packable fs before = true)
    (hmiss : fs.files missing = none) (i : Nat) (dest : FILE) (crc : Nat)
    (stHeader : List stHeaderEntry) (out : List LogLine) :
    ∃ out1, createLoop fs (before ++ missing :: after) i dest crc stHeader out =
      DataLoop.failed (fwrite (dataSection fs before) dest) out1 := by
  induction before generalizing i dest crc stHeader out with
  | nil =>
    refine ⟨out, ?_⟩
    rw [List.nil_append, createLoop, fopenRead_none fs missing hmiss]
    rfl
  | cons name rest ih =>
    obtain ⟨⟨hsome, hfit⟩, hrest⟩ := (packable_cons fs name rest).mp hp
    obtain ⟨c, hc⟩ := Option.isSome_iff_exists.mp hsome
    obtain ⟨out1, h⟩ := ih hrest (i + 1) (fwrite (copiedFrom fs name) dest)
      (entryOf fs name).crc (stHeader ++ [entryOf fs name])
      (out ++ [LogLine.adding i name (entryOf fs name).size (entryOf fs name).crc])
    refine ⟨out1, ?_⟩
    rw [List.cons_append, createLoop_cons_ok fs name _ i dest crc stHeader out c hc hfit, h]
    simp [dataSection, fwrite_append]

theorem overwrite_nil_take_zero (pos : Nat) (bs : List UInt8) :
    ∀ b ∈ (overwrite [] pos bs).take pos, b = 0 := by
  intro b hb
  cases bs with
  | nil => simp [overwrite] at hb
  | cons c cs =>
    simp only [overwrite, List.take_nil, List.length_nil, Nat.sub_zero, List.nil_append,
      List.drop_nil, List.append_nil] at hb
    rw [List.take_append_of_le_length (by simp)] at hb
    have hb2 := List.mem_of_mem_take hb
    exact (List.mem_replicate.mp hb2).2

/-- When every name in front of the first source that cannot be opened fits
its buffer, `createTar` returns `EXIT_FAILURE` at that source: once the output
stream is flushed, the output holds the data of the sources in front of it
behind a header region that reads as zero bytes (or nothing at all when no
data was copied), whatever the later sources contain. -/
theorem createTar_unopenable (fs : FS) (before : List (List UInt8)) (missing : List UInt8)
    (after : List (List UInt8)) (tar : List UInt8)
    (hw : fs.writable tar = true) (hp : packable (fs.store tar []) before = true)
    (hmiss : (fs.store tar []).files missing = none)
    (hint : (Spec.headerSize (before ++ missing :: after) : Int) ≤ INT_MAX) :
    (createTar fs (before ++ missing :: after) tar).code = some EXIT_FAILURE
    ∧ (createTar fs (before ++ missing :: after) tar).file tar =
        some (overwrite [] (Spec.headerSize (before ++ missing :: after))
          (dataSection (fs.store tar []) before))
    ∧ (∀ content, (createTar fs (before ++ missing :: after) tar).file tar = some content →
        ∀ b ∈ content.take (Spec.headerSize (before ++ missing :: after)), b = 0) := by
  obtain ⟨out1, hloop⟩ := createLoop_unopenable (fs.store tar []) before missing after hp hmiss 0
    (fseekSet { data := [], pos := 0, mode := Mode.wr }
      (stHeaderBytes (before ++ missing :: after))).2 0x1234 [] []
  have hrun : createTar fs (before ++ missing :: after) tar = Outcome.returned
      { code := EXIT_FAILURE
        fs := (fs.store tar []).store tar
          (overwrite [] (Spec.headerSize (before ++ missing :: after))
            (dataSection (fs.store tar []) before))
        out := out1 } := by
    unfold createTar
    rw [fopenWrite_ok fs tar hw]
    simp only [hloop]
    rw [stHeaderBytes_eq _ hint]
    simp only [fseekSet, Int.natCast_nonneg, if_true, Int.toNat_ofNat]
    rw [fwrite_wr _ _ rfl]
  have hfile : (createTar fs (before ++ missing :: after) tar).file tar =
      some (overwrite [] (Spec.headerSize (before ++ missing :: after))
        (dataSection (fs.store tar []) before)) := by
    rw [hrun]
    exact store_files_same _ _ _
  refine ⟨by rw [hrun]; rfl, hfile, ?_⟩
  intro content hc
  rw [hfile] at hc
  cases hc
  exact overwrite_nil_take_zero _ _

/-- C14, failing input: the existing file
`annual_report_2024_final_version.txt` followed by the missing file
`missing.txt`.  The name of the first source overflows its buffer before the
second source is opened, so the run is undefined and does not return
`EXIT_FAILURE`. -/
theorem createTar_unopenable_after_long_name :
    (mkFS [(bytes "annual_report_2024_final_version.txt", bytes "hi")]).files
      (bytes "missing.txt") = none
    ∧ (createTar (mkFS [(bytes "annual_report_2024_final_version.txt", bytes "hi")])
        [bytes "annual_report_2024_final_version.txt", bytes "missing.txt"]
        (bytes "o.mtar")).isUndefined = true
    ∧ (createTar (mkFS [(bytes "annual_report_2024_final_version.txt", bytes "hi")])
        [bytes "annual_report_2024_final_version.txt", bytes "missing.txt"]
        (bytes "o.mtar")).code ≠ some EXIT_FAILURE := by
  decide

/-! ## readHeader and the allocation of the array -/

/-- When the allocation is satisfied, or the count is not positive, the call
is the one `readHeader` describes. -/
theorem readHeaderAlloc_satisfied (heap fuel : Nat) (tarFile : FILE)
    (hlen : ¬ ((fread 4 tarFile).1.length < 4))
    (h : toInt32 (fromLE (fread 4 tarFile).1) ≤ 0 ∨
      sizeofHeaderEntry * (toInt32 (fromLE (fread 4 tarFile).1)).toNat ≤ heap) :
    readHeaderAlloc heap fuel tarFile =
      match readHeader fuel tarFile with
      | none => HeaderRun.noReturn
      | some (result, tarFile1) => HeaderRun.returned result tarFile1 := by
  unfold readHeaderAlloc
  rw [if_neg hlen]
  simp only [h, if_true]

/-- The unchecked allocation in general form: when the request for a positive
count is refused and the first `loadstr` returns, with a name or with `NULL`,
the call stores through `NULL`. -/
theorem readHeaderAlloc_refused (heap fuel : Nat) (tarFile : FILE)
    (hlen : ¬ ((fread 4 tarFile).1.length < 4))
    (hpos : 0 < toInt32 (fromLE (fread 4 tarFile).1))
    (hheap : heap < sizeofHeaderEntry * (toInt32 (fromLE (fread 4 tarFile).1)).toNat)
    (r : Option (List UInt8) × FILE) (hload : loadstr fuel (fread 4 tarFile).2 = some r) :
    readHeaderAlloc heap fuel tarFile = HeaderRun.undefined := by
  have h : ¬ (toInt32 (fromLE (fread 4 tarFile).1) ≤ 0 ∨
      sizeofHeaderEntry * (toInt32 (fromLE (fread 4 tarFile).1)).toNat ≤ heap) := by
    omega
  unfold readHeaderAlloc
  rw [if_neg hlen]
  simp only [h, if_false, hload]

/-- A short count field is rejected whatever `malloc` would do: the allocation
is not reached. -/
theorem readHeaderAlloc_short_count (heap fuel : Nat) (tarFile : FILE)
    (h : tarFile.unread.length < 4) :
    readHeaderAlloc heap fuel tarFile =
      HeaderRun.returned none { tarFile with pos := tarFile.pos + tarFile.unread.length } := by
  have hlt : (fread 4 tarFile).1.length < 4 := by
    simp only [fread, List.length_take]; omega
  have hpos : (fread 4 tarFile).2 = { tarFile with pos := tarFile.pos + tarFile.unread.length } := by
    simp only [fread, List.length_take]
    rw [Nat.min_eq_right (by omega)]
  rw [readHeaderAlloc, if_pos hlt, hpos]

/-- With the allocation satisfied, an empty name behind fewer complete records
than the positive count claims is rejected with `NULL`. -/
theorem readHeaderAlloc_empty_name (heap fuel : Nat) (hfuel : 0 < fuel) (count : Nat)
    (es : List stHeaderEntry) (post : List UInt8)
    (hname : ∀ e ∈ es, e.name ≠ [] ∧ ∀ b ∈ e.name, b ≠ 0)
    (htype : ∀ e ∈ es, e.size < 4294967296 ∧ e.crc < 65536)
    (hlen : ∀ e ∈ es, e.name.length < fuel)
    (hcount : es.length < count) (hint : count < 2147483648)
    (hheap : sizeofHeaderEntry * count ≤ heap) :
    readHeaderAlloc heap fuel
        { data := toLE 4 count ++ ((es.map entryBytes).flatten ++ 0 :: post)
          pos := 0
          mode := Mode.rd } =
      HeaderRun.returned none
        { data := toLE 4 count ++ ((es.map entryBytes).flatten ++ 0 :: post)
          pos := 4 + (es.map entryBytes).flatten.length + 1
          mode := Mode.rd } := by
  have hu : FILE.unread
      { data := toLE 4 count ++ ((es.map entryBytes).flatten ++ 0 :: post)
        pos := 0
        mode := Mode.rd } = toLE 4 count ++ ((es.map entryBytes).flatten ++ 0 :: post) := rfl
  have hr := fread_front _ _ _ hu
  rw [length_toLE] at hr
  have hn : toInt32 (fromLE (toLE 4 count) : Nat) = (count : Int) := by
    rw [fromLE_toLE_4 _ (by omega)]
    exact toInt32_of_range _ (by omega) (by unfold INT_MAX; omega)
  have hrd := readHeader_empty_name fuel hfuel count es post hname htype hlen hcount hint
  rw [readHeaderAlloc_satisfied heap fuel _ (by rw [hr]; simp [length_toLE])
    (by rw [hr]; right; rw [hn, Int.toNat_ofNat]; exact hheap), hrd]

/-- C15, failing input: the 13-byte stream with the count field `INT_MAX`, the
record of the file `a` and then a terminator byte where the second name
should start, on a machine whose `malloc` satisfies at most 16 GiB.  The
request of `16 * INT_MAX` bytes is refused, the pointer is not tested, and
the first iteration stores the name `a` through `NULL`: the call is undefined
and does not return `NULL`.  With the allocation satisfied the same stream is
rejected with `NULL` at the empty name. -/
theorem readHeader_stores_through_null_when_allocation_refused :
    toInt32 (fromLE [0xFF, 0xFF, 0xFF, 0x7F]) = INT_MAX
    ∧ sizeofHeaderEntry * INT_MAX.toNat = 34359738352
    ∧ readHeaderAlloc 17179869184 2
        { data := [0xFF, 0xFF, 0xFF, 0x7F] ++
            entryBytes { name := bytes "a", size := 0, crc := 0 } ++ [0]
          pos := 0
          mode := Mode.rd } = HeaderRun.undefined
    ∧ readHeaderAlloc 34359738352 2
        { data := [0xFF, 0xFF, 0xFF, 0x7F] ++
            entryBytes { name := bytes "a", size := 0, crc := 0 } ++ [0]
          pos := 0
          mode := Mode.rd } =
        HeaderRun.returned none
          { data := [0xFF, 0xFF, 0xFF, 0x7F] ++
              entryBytes { name := bytes "a", size := 0, crc := 0 } ++ [0]
            pos := 13
            mode := Mode.rd } := by
  refine ⟨?_, ?_, ?_, ?_⟩
  · decide
  · decide
  · decide
  · decide

end MyTar
